import Mathlib

/-!
# SM2 engine (`sm2/sm2.go`): a shallow embedding and its properties

Bytes are natural numbers, byte strings are lists.  `*big.Int` values that the
engine handles are natural numbers (integers where the signing arithmetic can go
negative).  Every Go function that may return an error, panic, or loop is a
function into `Res`.

The packages the engine imports but that are not part of `sm2.go` are taken as
parameters: the hash object (`sm3.New()`, used through `hash.Hash`) is a `Hash`,
the promoted `elliptic.CurveParams` methods and `elliptic.Marshal/Unmarshal` are
fields of `P256V1Curve`, the random source is a list of `Draw`s, `asn1.Marshal` is a
function argument of `Sign` (`asn1Marshal` is what the library does with the `[]big.Int`
of the source), and the helpers `util.IsEcPointInfinity` and
`util.ModInverse` are a `Util`.  The loops `for ; ; { ... }` take a `fuel` that bounds
their iterations; a run that uses it up, or that asks the random source for more
answers than were supplied, ends in `Res.spin`.
-/

namespace SM2

/-! ## Results of running Go code -/

/-- Run-time panics the engine can raise. -/
inductive Crash where
  /-- a slice expression `s[:n]` with `n > cap(s)` -/
  | sliceBounds
  /-- `make([]byte, n)` with `n < 0` -/
  | makeNegative
  /-- a method called through a nil `*big.Int` -/
  | nilDeref
  /-- an index expression `s[i]` with `i ≥ len(s)` -/
  | indexRange
  /-- `rand.Int` called with `max ≤ 0` -/
  | randArg
  deriving DecidableEq, Repr

/-- What a call does: return a value (`err == nil`), return an error, panic, or
still be inside one of its loops when the supplied fuel / random draws are used up. -/
inductive Res (α : Type) where
  | val (a : α)
  | fail (msg : String)
  | crash (c : Crash)
  | spin
  deriving DecidableEq, Repr

namespace Res

/-- Sequencing: anything but a value stops the computation. -/
def bind {α β : Type} : Res α → (α → Res β) → Res β
  | val a, f => f a
  | fail m, _ => fail m
  | crash c, _ => crash c
  | spin, _ => spin

instance : Monad Res where
  pure := Res.val
  bind := Res.bind

/-- Whether the call returned a value. -/
def isVal {α : Type} : Res α → Bool
  | val _ => true
  | _ => false

/-- Whether the call returned an error value (neither a panic nor a value). -/
def isFail {α : Type} : Res α → Bool
  | fail _ => true
  | _ => false

end Res

/-! ## Go slices and `big.Int` byte conversions -/

/-- A Go byte slice as a callee sees it: the `len` visible elements and the
elements of the backing array between `len` and `cap`. -/
structure Slice where
  elems : List Nat
  spare : List Nat
  deriving DecidableEq, Repr

/-- The capacity `cap(s)`. -/
def Slice.cap (s : Slice) : Nat := s.elems.length + s.spare.length

/-- The slice expression `s[:n]`: legal up to the capacity, not just the length. -/
def Slice.upTo (s : Slice) (n : Nat) : Res (List Nat) :=
  if n ≤ s.cap then .val ((s.elems ++ s.spare).take n) else .crash .sliceBounds

/-- A slice whose capacity equals its length. -/
def Slice.ofList (l : List Nat) : Slice := ⟨l, []⟩

/-- The builtin `copy(dst, src)`: overwrites the first `min(len dst, len src)` elements. -/
def copy (dst src : List Nat) : List Nat :=
  src.take dst.length ++ dst.drop src.length

/-- Little-endian base-256 digits of `n` (at most `fuel` of them). -/
def bytesLE : Nat → Nat → List Nat
  | 0, _ => []
  | fuel + 1, n => if n = 0 then [] else (n % 256) :: bytesLE fuel (n / 256)

/-- The method `(*big.Int).Bytes()`: the big-endian bytes of the absolute value, without
leading zeros (zero gives the empty slice). -/
def bigBytes (n : Nat) : List Nat := (bytesLE n n).reverse

/-- The method `(*big.Int).SetBytes`: the big-endian value of a byte string. -/
def setBytes (b : List Nat) : Nat := b.foldl (fun acc x => acc * 256 + x) 0

/-- The four bytes `binary.BigEndian.PutUint32` stores for a `uint32` value. -/
def be32 (ct : Nat) : List Nat :=
  [ct / 16777216 % 256, ct / 65536 % 256, ct / 256 % 256, ct % 256]

/-- The two bytes `binary.BigEndian.PutUint16` stores for a `uint16` value. -/
def be16 (v : Nat) : List Nat := [v / 256 % 256, v % 256]

/-- The call `binary.BigEndian.PutUint32(buf, ct)` on a buffer of at least four bytes. -/
def putUint32 (buf : List Nat) (ct : Nat) : List Nat := copy buf (be32 ct)

/-! ## The hash object -/

/-- The hash object `sm3.New()` as the engine uses it through `hash.Hash`.  `Sum st` is
the slice `Sum(nil)` returns when `st` are the bytes written since the last `Reset`. -/
structure Hash where
  BlockSize : Nat
  Size : Nat
  Sum : List Nat → Slice

/-- State of a hash object: the bytes written since the last `Reset`. -/
abbrev HashState := List Nat

/-- The method `Reset`. -/
def Hash.Reset (_st : HashState) : HashState := []

/-- The method `Write`. -/
def Hash.Write (st : HashState) (b : List Nat) : HashState := st ++ b

/-- The digest bytes `Sum(nil)` shows (its `len` part). -/
def Hash.digest (h : Hash) (msg : List Nat) : List Nat := (h.Sum msg).elems

/-! ## `xor`, `kdf`, `notEncrypted` -/

/-- The function `xor`: `for i := 0; i != dRemaining; i++ { data[i] ^= kdfOut[i] }`. -/
def xor : List Nat → List Nat → Nat → Res (List Nat)
  | data, _, 0 => .val data
  | d :: data, k :: kdfOut, n + 1 =>
    (xor data kdfOut n).bind fun r => .val ((d ^^^ k) :: r)
  | _, _, _ + 1 => .crash .indexRange

/-- The loop `for off < encDataLen { ... }` of `kdf`; `fuel` bounds the number of
iterations.  The state is the hash state, `buf`, `off`, `ct` and `encData`. -/
def kdfLoop (h : Hash) (c1xBytes c1yBytes : List Nat) (bufSize encDataLen : Nat) :
    Nat → HashState → List Nat → Nat → Nat → List Nat → Res (HashState × List Nat)
  | 0, st, _, off, _, encData =>
    if off < encDataLen then .spin else .val (st, encData)
  | fuel + 1, st, buf, off, ct, encData =>
    if off < encDataLen then
      let st := Hash.Reset st
      let st := Hash.Write st c1xBytes
      let st := Hash.Write st c1yBytes
      let ct := (ct + 1) % 4294967296
      let buf := putUint32 buf ct
      let st := Hash.Write st (buf.take 4)
      let tmp := h.Sum st
      (tmp.upTo bufSize).bind fun src =>
      let buf := copy (buf.take bufSize) src ++ buf.drop bufSize
      let xorLen := encDataLen - off
      let xorLen := if xorLen > h.BlockSize then h.BlockSize else xorLen
      (xor (encData.drop off) buf xorLen).bind fun masked =>
      let encData := encData.take off ++ masked
      kdfLoop h c1xBytes c1yBytes bufSize encDataLen fuel st buf (off + xorLen) ct encData
    else .val (st, encData)

/-- The function `kdf`: masks `encData` in place; returns the final hash state and
the masked data.  The loop gets one unit of fuel per data byte. -/
def kdf (h : Hash) (st : HashState) (c1x c1y : Nat) (encData : List Nat) :
    Res (HashState × List Nat) :=
  let bufSize := if 4 < h.BlockSize then h.BlockSize else 4
  let buf := List.replicate bufSize 0
  kdfLoop h (bigBytes c1x) (bigBytes c1y) bufSize encData.length
    encData.length st buf 0 0 encData

/-- The function `notEncrypted`: every byte of `encData` is compared with `in[0]`. -/
def notEncrypted : List Nat → List Nat → Res Bool
  | [], _ => .val true
  | _ :: _, [] => .crash .indexRange
  | e :: encData, i0 :: inp =>
    if e ≠ i0 then .val false else notEncrypted encData (i0 :: inp)

/-! ## The random source and `nextK` -/

/-- One answer of the random source to a `rand.Int` call: a value or an error. -/
inductive Draw where
  | val (n : Nat)
  | fail (msg : String)
  deriving DecidableEq, Repr

/-- The call `rand.Int(rnd, max)`: panics for `max ≤ 0`, otherwise consumes the next
answer of the source.  A run whose list of answers is used up is cut there (`spin`). -/
def randInt (draws : List Draw) (max : Nat) : Res (Nat × List Draw) :=
  if max = 0 then .crash .randArg
  else match draws with
    | [] => .spin
    | .val n :: rest => .val (n, rest)
    | .fail m :: _ => .fail m

/-- The loop `for k.Cmp(intOne) == -1 { k, err = rand.Int(rnd, max); ... }` of `nextK`,
with the `rand.Int` call unfolded so that the recursion follows the list of answers. -/
def nextKLoop (max : Nat) : Nat → List Draw → Res (Nat × List Draw)
  | k, [] => if k < 1 then (if max = 0 then .crash .randArg else .spin) else .val (k, [])
  | k, d :: rest =>
    if k < 1 then
      if max = 0 then .crash .randArg
      else match d with
        | .val n => nextKLoop max n rest
        | .fail m => .fail m
    else .val (k, d :: rest)

/-- The function `nextK`: returns the scalar and the answers not yet consumed. -/
def nextK (draws : List Draw) (max : Nat) : Res (Nat × List Draw) :=
  (randInt draws max).bind fun kr => nextKLoop max kr.1 kr.2

/-! ## Curve, keys and the helpers of package `util` -/

/-- The type `P256V1Curve`: the constants of the embedded `*elliptic.CurveParams`, the
coefficient `A`, and the `crypto/elliptic` operations the engine calls on it.
`Unmarshal` gives `none` where the library returns `(nil, nil)`. -/
structure P256V1Curve where
  P : Nat
  N : Nat
  B : Nat
  Gx : Nat
  Gy : Nat
  BitSize : Nat
  A : Nat
  ScalarBaseMult : List Nat → Nat × Nat
  ScalarMult : Nat → Nat → List Nat → Nat × Nat
  Marshal : Nat → Nat → List Nat
  Unmarshal : List Nat → Option (Nat × Nat)

/-- The type `PublicKey`. -/
structure PublicKey where
  X : Nat
  Y : Nat
  Curve : P256V1Curve

/-- The type `PrivateKey`. -/
structure PrivateKey where
  D : Nat
  Curve : P256V1Curve

/-- The two helpers of package `util` whose definitions the engine's file does not
show: the identity test on affine coordinates and the modular inverse. -/
structure Util where
  IsEcPointInfinity : Nat → Nat → Bool
  ModInverse : Int → Int → Int

/-- Modelled from the spec: `util.Add` is missing from the sources; section 4.1 lists
it as integer addition. -/
def utilAdd (x y : Int) : Int := x + y

/-- Modelled from the spec: `util.Sub` is missing from the sources; section 4.1 lists
it as integer subtraction (the `k - r·D` of section 4.6). -/
def utilSub (x y : Int) : Int := x - y

/-- Modelled from the spec: `util.Mul` is missing from the sources; section 4.1 lists
it as integer multiplication. -/
def utilMul (x y : Int) : Int := x * y

/-- Modelled from the spec: `util.Mod` is missing from the sources; section 4.6 uses
it as reduction `mod N` into `[0, N-1]`. -/
def utilMod (x n : Int) : Int := x % n

/-- The variable `sm2HBytes`: the bytes of the cofactor 1. -/
def sm2HBytes : List Nat := bigBytes 1

/-- The variable `sm2SignDefaultUserId`. -/
def sm2SignDefaultUserId : List Nat :=
  [0x31, 0x32, 0x33, 0x34, 0x35, 0x36, 0x37, 0x38,
   0x31, 0x32, 0x33, 0x34, 0x35, 0x36, 0x37, 0x38]

/-! ## `Encrypt` and `Decrypt` -/

/-- What the retry loop of `Encrypt` leaves behind: `c1`, `c2`, the shared point, the
hash state, and the answers of the random source it has not consumed. -/
structure EncState where
  c1 : List Nat
  c2 : List Nat
  kPBx : Nat
  kPBy : Nat
  st : HashState
  rest : List Draw
  deriving DecidableEq, Repr

/-- The loop `for ; ; { ... if !notEncrypted(c2, in) { break } }` of `Encrypt`; `fuel`
bounds the number of iterations.  `c2` and the hash state are carried from one
iteration to the next, as in the source. -/
def encryptLoop (h : Hash) (pub : PublicKey) (inp : List Nat) :
    Nat → List Draw → HashState → List Nat → Res EncState
  | 0, _, _, _ => .spin
  | fuel + 1, draws, st, c2 =>
    (nextK draws pub.Curve.N).bind fun kr =>
    let kBytes := bigBytes kr.1
    let c1p := pub.Curve.ScalarBaseMult kBytes
    let c1 := pub.Curve.Marshal c1p.1 c1p.2
    let kPB := pub.Curve.ScalarMult pub.X pub.Y kBytes
    (kdf h st kPB.1 kPB.2 c2).bind fun sc =>
    (notEncrypted sc.2 inp).bind fun ne =>
    if !ne then .val ⟨c1, sc.2, kPB.1, kPB.2, sc.1, kr.2⟩
    else encryptLoop h pub inp fuel kr.2 sc.1 sc.2

/-- The function `Encrypt`; `draws` are the answers of `rand.Reader`. -/
def Encrypt (h : Hash) (fuel : Nat) (draws : List Draw) (pub : PublicKey)
    (inp : List Nat) : Res (List Nat) :=
  let c2 := copy (List.replicate inp.length 0) inp
  (encryptLoop h pub inp fuel draws [] c2).bind fun s =>
  let st := Hash.Reset s.st
  let st := Hash.Write st (bigBytes s.kPBx)
  let st := Hash.Write st inp
  let st := Hash.Write st (bigBytes s.kPBy)
  let c3 := (h.Sum st).elems
  .val (s.c1 ++ s.c2 ++ c3)

/-- The function `Decrypt`.  The input is a slice, since `in[:c1Len]` is checked against
its capacity.  `ScalarMult` dereferences its coordinates, so the `(nil, nil)` of a failed
`Unmarshal` panics there. -/
def Decrypt (h : Hash) (U : Util) (priv : PrivateKey) (inp : Slice) : Res (List Nat) :=
  let c1Len := ((priv.Curve.BitSize + 7) / 8) * 2 + 1
  let c1 := List.replicate c1Len 0
  (inp.upTo c1Len).bind fun src =>
  let c1 := copy c1 src
  match priv.Curve.Unmarshal c1 with
  | none => .crash .nilDeref
  | some c1p =>
    let s := priv.Curve.ScalarMult c1p.1 c1p.2 sm2HBytes
    if U.IsEcPointInfinity s.1 s.2 then .fail "[h]C1 at infinity"
    else
      let c1q := priv.Curve.ScalarMult c1p.1 c1p.2 (bigBytes priv.D)
      let st : HashState := []
      let c3Len := h.Size
      if inp.elems.length < c1Len + c3Len then .crash .makeNegative
      else
        let c2Len := inp.elems.length - c1Len - c3Len
        let c2 := copy (List.replicate c2Len 0) ((inp.elems.drop c1Len).take c2Len)
        (kdf h st c1q.1 c1q.2 c2).bind fun sc =>
        let st := Hash.Reset sc.1
        let st := Hash.Write st (bigBytes c1q.1)
        let st := Hash.Write st sc.2
        let st := Hash.Write st (bigBytes c1q.2)
        let c3 := (h.Sum st).elems
        if c3 ≠ inp.elems.drop (c1Len + c2Len) then .fail "invalid cipher text"
        else .val sc.2

/-! ## `getZ` and `Sign` -/

/-- The function `getZ`: returns the hash state it leaves and the digest. -/
def getZ (h : Hash) (st : HashState) (curve : P256V1Curve) (pubX pubY : Nat)
    (userId : List Nat) : HashState × List Nat :=
  let st := Hash.Reset st
  let userIdLen := userId.length % 65536
  let st := Hash.Write st (be16 userIdLen)
  let st := Hash.Write st userId
  let st := Hash.Write st (bigBytes curve.A)
  let st := Hash.Write st (bigBytes curve.B)
  let st := Hash.Write st (bigBytes curve.Gx)
  let st := Hash.Write st (bigBytes curve.Gy)
  let st := Hash.Write st (bigBytes pubX)
  let st := Hash.Write st (bigBytes pubY)
  (st, (h.Sum st).elems)

/-- The inner loop of `Sign`: samples `k` until the test
`r.Cmp(intZero) == 0 || rk.Cmp(priv.Curve.N) == 0` holds; returns `r`, `k` and the
answers not yet consumed. -/
def signInner (C : P256V1Curve) (e : Int) : Nat → List Draw → Res (Int × Int × List Draw)
  | 0, _ => .spin
  | fuel + 1, draws =>
    (nextK draws C.N).bind fun kr =>
    let k : Int := kr.1
    let p := C.ScalarBaseMult (bigBytes kr.1)
    let r := utilAdd e p.1
    let r := utilMod r C.N
    let rk := r + k
    if r = 0 ∨ rk = C.N then .val (r, k, kr.2)
    else signInner C e fuel kr.2

/-- The outer loop of `Sign`: leaves with `(r, s)` when the test `s.Cmp(intZero) == 0`
holds.  Each round runs the inner loop with the fuel that is left. -/
def signOuter (U : Util) (C : P256V1Curve) (D e : Int) : Nat → List Draw → Res (Int × Int)
  | 0, _ => .spin
  | fuel + 1, draws =>
    (signInner C e (fuel + 1) draws).bind fun rkd =>
    let r := rkd.1
    let k := rkd.2.1
    let dPlus1ModN := utilAdd D 1
    let dPlus1ModN := U.ModInverse dPlus1ModN C.N
    let s := utilMul r D
    let s := utilSub k s
    let s := utilMod s C.N
    let s := utilMul dPlus1ModN s
    let s := utilMod s C.N
    if s = 0 then .val (r, s)
    else signOuter U C D e fuel rkd.2.2

/-- The pair `(r, s)` that `Sign` hands to `asn1.Marshal`. -/
def signPair (h : Hash) (U : Util) (fuel : Nat) (draws : List Draw) (priv : PrivateKey)
    (userId : Option (List Nat)) (inp : List Nat) : Res (Int × Int) :=
  let pub := priv.Curve.ScalarBaseMult (bigBytes priv.D)
  let userId := match userId with
    | none => sm2SignDefaultUserId
    | some u => u
  let z := getZ h [] priv.Curve pub.1 pub.2 userId
  let st := Hash.Reset z.1
  let st := Hash.Write st z.2
  let st := Hash.Write st inp
  let eHash := (h.Sum st).elems
  let e : Int := setBytes eHash
  signOuter U priv.Curve priv.D e fuel draws

/-- The function `Sign`; `asn1` is `asn1.Marshal` on the two integers. -/
def Sign (h : Hash) (U : Util) (asn1 : Int → Int → Res (List Nat)) (fuel : Nat)
    (draws : List Draw) (priv : PrivateKey) (userId : Option (List Nat))
    (inp : List Nat) : Res (List Nat) :=
  (signPair h U fuel draws priv userId inp).bind fun rs => asn1 rs.1 rs.2

/-! ## The mask that `kdf` applies, as a function of the byte position -/

/-- Mask `l` with the byte stream `f`, starting at stream position `i`. -/
def maskFrom (f : Nat → Nat) : Nat → List Nat → List Nat
  | _, [] => []
  | i, d :: ds => (d ^^^ f i) :: maskFrom f (i + 1) ds

/-- The size `bufSize` of the buffer of `kdf`: `max 4 (hash.BlockSize())`. -/
def kdfBufSize (h : Hash) : Nat := if 4 < h.BlockSize then h.BlockSize else 4

/-- The content of `buf` after `copy(buf[:bufSize], tmp[:bufSize])` in the step whose
counter is `ct`: the first `bufSize` bytes of the backing array of `Sum(nil)`. -/
def kdfBlock (h : Hash) (xB yB : List Nat) (ct : Nat) : List Nat :=
  ((h.Sum (xB ++ yB ++ be32 ct)).elems ++ (h.Sum (xB ++ yB ++ be32 ct)).spare).take
    (kdfBufSize h)

/-- Byte `i` of the mask of `kdf`: byte `i mod B` of the block of counter `i / B + 1`
(as a `uint32`), where `B` is the block size of the hash. -/
def kdfMaskByte (h : Hash) (x y : Nat) (i : Nat) : Nat :=
  (kdfBlock h (bigBytes x) (bigBytes y) ((i / h.BlockSize + 1) % 4294967296)).getD
    (i % h.BlockSize) 0

/-- The data the loop of `kdf` leaves: every byte XORed with the mask byte of the code
(`kdfMaskByte`, chunked by the block size).  This is the code's own mask, not the stream
of section 4.3 of the spec, which is `kdfStd`. -/
def kdfSpec (h : Hash) (x y : Nat) (data : List Nat) : List Nat :=
  maskFrom (kdfMaskByte h x y) 0 data

/-- The length `c1Len` that `Decrypt` computes for the encoded point. -/
def c1Len (C : P256V1Curve) : Nat := ((C.BitSize + 7) / 8) * 2 + 1

/-- What `Decrypt` does once its input is known to hold `C1` and `C3`, in terms of
`body = C1 ∥ C2` and the carried tag `C3`. -/
def decryptCore (h : Hash) (U : Util) (priv : PrivateKey) (body tag : List Nat) :
    Res (List Nat) :=
  match priv.Curve.Unmarshal (body.take (c1Len priv.Curve)) with
  | none => .crash .nilDeref
  | some c1p =>
    if U.IsEcPointInfinity (priv.Curve.ScalarMult c1p.1 c1p.2 sm2HBytes).1
        (priv.Curve.ScalarMult c1p.1 c1p.2 sm2HBytes).2 then .fail "[h]C1 at infinity"
    else
      (kdf h [] (priv.Curve.ScalarMult c1p.1 c1p.2 (bigBytes priv.D)).1
        (priv.Curve.ScalarMult c1p.1 c1p.2 (bigBytes priv.D)).2
        (body.drop (c1Len priv.Curve))).bind fun sc =>
      if h.digest (bigBytes (priv.Curve.ScalarMult c1p.1 c1p.2 (bigBytes priv.D)).1 ++ sc.2
          ++ bigBytes (priv.Curve.ScalarMult c1p.1 c1p.2 (bigBytes priv.D)).2) ≠ tag
      then .fail "invalid cipher text"
      else .val sc.2

/-- The mask of the standard key-derivation function, from the words of the spec
(section 4.3): the digests of `X ∥ Y ∥ BE32(ct)` for `ct = 1, 2, …` one after the other,
each contributing its `Size()` bytes. -/
def kdfStdByte (h : Hash) (x y : Nat) (i : Nat) : Nat :=
  (h.digest (bigBytes x ++ bigBytes y ++ be32 (i / h.Size + 1))).getD (i % h.Size) 0

/-- The data masked with the standard key-derivation stream. -/
def kdfStd (h : Hash) (x y : Nat) (data : List Nat) : List Nat :=
  maskFrom (kdfStdByte h x y) 0 data

/-- Flip bit `b` of byte `j` of a byte string. -/
def flipBit (l : List Nat) (j b : Nat) : List Nat := l.set j (l.getD j 0 ^^^ 2 ^ b)

/-! ## A small instance of the parameters, for worked examples

A 32-byte digest with a 16-byte block size, and a stand-in group on `ℤ/257 × ℤ/257`
(scalar multiplication is coordinate-wise) with the uncompressed 65-byte point
encoding.  They only instantiate the interfaces above; nothing is proved about SM3 or
about the SM2 curve's group law through them. -/

/-- A 32-byte digest that depends on the sum of the bytes written. -/
def sampleDigest (m : List Nat) : List Nat :=
  (List.range 32).map fun i => (m.sum * (i + 1) + i) % 256

/-- A hash object with `Size() = 32`, `BlockSize() = 16`, whose `Sum(nil)` has no
spare capacity. -/
def sampleHash : Hash := ⟨16, 32, fun m => ⟨sampleDigest m, []⟩⟩

/-- The same digest behind `BlockSize() = 64`. -/
def wideHash : Hash := ⟨64, 32, fun m => ⟨sampleDigest m, []⟩⟩

/-- A coordinate left-padded with zeros to 32 bytes. -/
def pad32 (n : Nat) : List Nat :=
  (List.replicate 32 0 ++ bigBytes n).drop (bigBytes n).length

/-- The stand-in curve: points `(t, 2t)` of `ℤ/257 × ℤ/257`, base point `(1, 2)`. -/
def sampleCurve : P256V1Curve where
  P := 257
  N := 257
  B := 0
  Gx := 1
  Gy := 2
  BitSize := 256
  A := 254
  ScalarBaseMult := fun k => ((setBytes k * 1) % 257, (setBytes k * 2) % 257)
  ScalarMult := fun x y k => ((setBytes k * x) % 257, (setBytes k * y) % 257)
  Marshal := fun x y => 4 :: (pad32 x ++ pad32 y)
  Unmarshal := fun d =>
    if d.length = 65 ∧ d.head? = some 4 then
      let x := setBytes ((d.drop 1).take 32)
      let y := setBytes (d.drop 33)
      if x < 257 ∧ y < 257 ∧ (2 * x) % 257 = y then some (x, y) else none
    else none

/-- The helpers of `util` for the stand-in curve: the identity is `(0, 0)`; the modular
inverse is found by search and is 0 where there is none. -/
def sampleUtil : Util where
  IsEcPointInfinity := fun x y => x == 0 && y == 0
  ModInverse := fun x n =>
    match (List.range n.toNat).find? (fun y => (x * (y : Int)) % n == 1) with
    | some y => (y : Int)
    | none => 0

/-- The private key `D = 5` on the stand-in curve. -/
def samplePriv : PrivateKey := ⟨5, sampleCurve⟩

/-- The public key `5·G = (5, 10)` on the stand-in curve. -/
def samplePub : PublicKey := ⟨5, 10, sampleCurve⟩

/-- The payload "hello". -/
def helloBytes : List Nat := [104, 101, 108, 108, 111]

/-- The ciphertext `Encrypt` returns for "hello" under `samplePub` when the random source
answers 0 and then 3: `C1` encodes `3·G = (3, 6)`, `C2` has five bytes, `C3` has 32. -/
def sampleCipher : List Nat :=
  sampleCurve.Marshal 3 6 ++ [70, 56, 224, 215, 133] ++
  [65, 131, 197, 7, 73, 139, 205, 15, 81, 147, 213, 23, 89, 155, 221, 31, 97, 163, 229, 39,
   105, 171, 237, 47, 113, 179, 245, 55, 121, 187, 253, 63]

/-- The ciphertext `Encrypt` returns for the payload `[0, 1]` under `samplePub` when the
random source answers 17 and then 3: the attempt with `k = 17` is rejected by
`notEncrypted`, the attempt with `k = 3` is kept. -/
def retryCipher : List Nat :=
  sampleCurve.Marshal 3 6 ++ [46, 93] ++
  [46, 93, 140, 187, 234, 25, 72, 119, 166, 213, 4, 51, 98, 145, 192, 239, 30, 77, 124, 171,
   218, 9, 56, 103, 150, 197, 244, 35, 82, 129, 176, 223]

/-- The call `asn1.Marshal([]big.Int{*r, *s})` of `Sign`: the elements of the slice are
`big.Int` structs, not `*big.Int`, and the fields of that struct are unexported, so
`encoding/asn1` returns a structure error for every pair. -/
def asn1Marshal (_r _s : Int) : Res (List Nat) :=
  .fail "asn1: structure error: struct contains unexported fields"

/-- The message "msg". -/
def msgBytes : List Nat := [109, 115, 103]

/-- The 17-byte payload `01 02 … 11`. -/
def seventeenBytes : List Nat := (List.range 17).map (· + 1)

/-- A ciphertext for `seventeenBytes` built from the words of the spec (section 4.4) with
`k = 3` under the sample key: `C1` encodes `3·G = (3, 6)`, `C2 = M XOR KDF(S, 17)` with
the standard stream for `S = 3·pub = (15, 30)`, and `C3 = digest(X(S) ∥ M ∥ Y(S))`. -/
def stdCipher : List Nat :=
  sampleCurve.Marshal 3 6 ++ kdfStd sampleHash 15 30 seventeenBytes
    ++ sampleHash.digest (bigBytes 15 ++ seventeenBytes ++ bigBytes 30)

/-- The ciphertext `Encrypt` itself returns for `seventeenBytes` under the sample key
when the random source answers 3: the same `C1` and `C3`, with `C2` masked by the loop of
`kdf`. -/
def ownCipher : List Nat :=
  sampleCurve.Marshal 3 6 ++ kdfSpec sampleHash 15 30 seventeenBytes
    ++ sampleHash.digest (bigBytes 15 ++ seventeenBytes ++ bigBytes 30)

/-! ## The curve constants of `initSm2P256V1` -/

/-- The constant `BitSize`. -/
def BitSize : Nat := 256

/-- The prime `sm2P` of `initSm2P256V1`. -/
def sm2P : Nat := 0xFFFFFFFEFFFFFFFFFFFFFFFFFFFFFFFFFFFFFFFF00000000FFFFFFFFFFFFFFFF

/-- The coefficient `sm2A` of `initSm2P256V1`. -/
def sm2A : Nat := 0xFFFFFFFEFFFFFFFFFFFFFFFFFFFFFFFFFFFFFFFF00000000FFFFFFFFFFFFFFFC

/-- The coefficient `sm2B` of `initSm2P256V1`. -/
def sm2B : Nat := 0x28E9FA9E9D9F5E344D5A9E4BCF6509A7F39789F515AB8F92DDBCBD414D940E93

/-- The group order `sm2N` of `initSm2P256V1`. -/
def sm2N : Nat := 0xFFFFFFFEFFFFFFFFFFFFFFFFFFFFFFFF7203DF6B21C6052B53BBF40939D54123

/-- The base point coordinate `sm2Gx` of `initSm2P256V1`. -/
def sm2Gx : Nat := 0x32C4AE2C1F1981195F9904466A39C9948FE30BBFF2660BE1715A4589334C74C7

/-- The base point coordinate `sm2Gy` of `initSm2P256V1`. -/
def sm2Gy : Nat := 0xBC3736A2F4F6779C59BDCEE36B692153D0A9877CC62A474002DF32E52139F0A0

/-- The function `initSm2P256V1`: the value it gives `sm2P256V1`.  The four operations are
the methods the embedded `*elliptic.CurveParams` and package `elliptic` supply. -/
def initSm2P256V1 (scalarBaseMult : List Nat → Nat × Nat)
    (scalarMult : Nat → Nat → List Nat → Nat × Nat) (marshal : Nat → Nat → List Nat)
    (unmarshal : List Nat → Option (Nat × Nat)) : P256V1Curve where
  P := sm2P
  A := sm2A
  B := sm2B
  N := sm2N
  Gx := sm2Gx
  Gy := sm2Gy
  BitSize := BitSize
  ScalarBaseMult := scalarBaseMult
  ScalarMult := scalarMult
  Marshal := marshal
  Unmarshal := unmarshal

/-- The right-hand side `x³ + A·x + B mod P` of the curve equation with the stored
coefficient `A` (section 3 of the spec). -/
def curveRhs (C : P256V1Curve) (x : Int) : Int := (x ^ 3 + (C.A : Int) * x + C.B) % C.P

/-- The right-hand side `x³ - 3x + B mod P` that the generic `elliptic.CurveParams`
arithmetic and `IsOnCurve` use, whatever `A` is stored next to them. -/
def genericRhs (C : P256V1Curve) (x : Int) : Int := (x ^ 3 - 3 * x + C.B) % C.P

/-- The right-hand side of the curve equation for an arbitrary coefficient `a`. -/
def rhsWith (C : P256V1Curve) (a : Int) (x : Int) : Int := (x ^ 3 + a * x + C.B) % C.P

/-! ## Spec-side definitions for the signer context hash and the data of `kdf` -/

/-- The signer context hash from the words of the spec (section 4.6): the two-byte prefix
is the length of `userId` in bits. -/
def getZStd (h : Hash) (curve : P256V1Curve) (pubX pubY : Nat) (userId : List Nat) :
    List Nat :=
  h.digest (be16 ((8 * userId.length) % 65536) ++ userId ++ bigBytes curve.A
    ++ bigBytes curve.B ++ bigBytes curve.Gx ++ bigBytes curve.Gy ++ bigBytes pubX
    ++ bigBytes pubY)

/-- The data `kdf` leaves in the buffer, without the hash state. -/
def kdfData (h : Hash) (st : HashState) (x y : Nat) (data : List Nat) : Res (List Nat) :=
  (kdf h st x y data).bind fun r => .val r.2

/-- A 32-byte digest behind `BlockSize() = 64` whose `Sum(nil)` comes with 32 bytes of
spare capacity holding `0xAA`. -/
def spareHash : Hash := ⟨64, 32, fun m => ⟨sampleDigest m, List.replicate 32 0xAA⟩⟩

/-- A 32-byte digest behind `BlockSize() = 64` whose `Sum(nil)` comes with 32 zero bytes
of spare capacity. -/
def zeroSpareHash : Hash := ⟨64, 32, fun m => ⟨sampleDigest m, List.replicate 32 0⟩⟩

set_option maxRecDepth 100000

/-! ## Basic facts -/


@[simp] theorem Res.val_bind {α β : Type} (a : α) (f : α → Res β) : (Res.val a).bind f = f a := rfl
@[simp] theorem Res.fail_bind {α β : Type} (m : String) (f : α → Res β) :
    (Res.fail m : Res α).bind f = .fail m := rfl
@[simp] theorem Res.crash_bind {α β : Type} (c : Crash) (f : α → Res β) :
    (Res.crash c : Res α).bind f = .crash c := rfl
@[simp] theorem Res.spin_bind {α β : Type} (f : α → Res β) :
    (Res.spin : Res α).bind f = .spin := rfl

theorem Res.bind_eq_val {α β : Type} {x : Res α} {f : α → Res β} {b : β}
    (hx : x.bind f = .val b) : ∃ a, x = .val a ∧ f a = .val b := by
  cases x with
  | val a => exact ⟨a, rfl, hx⟩
  | fail m => simp at hx
  | crash c => simp at hx
  | spin => simp at hx

@[simp] theorem maskFrom_length (f : Nat → Nat) (i : Nat) (l : List Nat) :
    (maskFrom f i l).length = l.length := by
  induction l generalizing i with
  | nil => rfl
  | cons d ds ih => simp [maskFrom, ih]

theorem maskFrom_append (f : Nat → Nat) (i : Nat) (a b : List Nat) :
    maskFrom f i (a ++ b) = maskFrom f i a ++ maskFrom f (i + a.length) b := by
  induction a generalizing i with
  | nil => simp [maskFrom]
  | cons d ds ih => simp [maskFrom, ih, Nat.add_assoc, Nat.add_comm 1]

theorem maskFrom_congr (f g : Nat → Nat) (i k : Nat) (l : List Nat)
    (hfg : ∀ j, j < l.length → f (i + j) = g (k + j)) :
    maskFrom f i l = maskFrom g k l := by
  induction l generalizing i k with
  | nil => rfl
  | cons d ds ih =>
    have h0 := hfg 0 (by simp)
    simp only [Nat.add_zero] at h0
    simp only [maskFrom, h0]
    congr 1
    apply ih
    intro j hj
    have := hfg (j + 1) (by simpa using hj)
    simpa [Nat.add_assoc, Nat.add_comm 1] using this

theorem maskFrom_involutive (f : Nat → Nat) (i : Nat) (l : List Nat) :
    maskFrom f i (maskFrom f i l) = l := by
  induction l generalizing i with
  | nil => rfl
  | cons d ds ih => simp [maskFrom, ih, Nat.xor_cancel_right]

theorem maskFrom_getElem? (f : Nat → Nat) (i : Nat) (l : List Nat) (j : Nat) :
    (maskFrom f i l)[j]? = (l[j]?).map (fun d => d ^^^ f (i + j)) := by
  induction l generalizing i j with
  | nil => simp [maskFrom]
  | cons d ds ih =>
    cases j with
    | zero => simp [maskFrom]
    | succ j => simp [maskFrom, ih, Nat.add_assoc, Nat.add_comm 1]

theorem xor_eq (n : Nat) : ∀ (data buf : List Nat), n ≤ data.length → n ≤ buf.length →
    xor data buf n = .val (maskFrom (fun j => buf.getD j 0) 0 (data.take n) ++ data.drop n) := by
  induction n with
  | zero => intro data buf _ _; simp [xor, maskFrom]
  | succ n ih =>
    intro data buf hd hb
    match data, buf, hd, hb with
    | d :: data, k :: buf, hd, hb =>
      simp only [List.length_cons, Nat.add_le_add_iff_right] at hd hb
      simp only [xor, ih data buf hd hb, Res.val_bind, List.take_succ_cons, maskFrom,
        List.drop_succ_cons, List.getD_cons_zero, List.cons_append]
      congr 2
      congr 1
      apply maskFrom_congr
      intro j _
      simp [Nat.add_comm 1]

theorem xor_length {n : Nat} : ∀ {data buf out : List Nat}, xor data buf n = .val out →
    out.length = data.length := by
  induction n with
  | zero => intro data buf out h; simp [xor] at h; simp [← h]
  | succ n ih =>
    intro data buf out h
    match data, buf, h with
    | d :: data, k :: buf, h =>
      simp only [xor] at h
      obtain ⟨r, hr, hv⟩ := Res.bind_eq_val h
      simp at hv
      simp [← hv, ih hr]
    | [], _, h => simp [xor] at h
    | _ :: _, [], h => simp [xor] at h

/-! ## `Bytes` and `SetBytes` -/

theorem bytesLE_value : ∀ (fuel n : Nat), n ≤ fuel →
    (bytesLE fuel n).foldr (fun x acc => acc * 256 + x) 0 = n := by
  intro fuel
  induction fuel with
  | zero => intro n hn; simp [bytesLE]; omega
  | succ fuel ih =>
    intro n hn
    unfold bytesLE
    split
    · simp_all
    · rename_i h0
      have hd : n / 256 ≤ fuel := by
        have := Nat.div_lt_self (Nat.pos_of_ne_zero h0) (by decide : 1 < 256)
        omega
      rw [List.foldr_cons, ih _ hd]
      exact Nat.div_add_mod' n 256

/-- `SetBytes` undoes `Bytes`. -/
theorem setBytes_bigBytes (n : Nat) : setBytes (bigBytes n) = n := by
  unfold setBytes bigBytes
  rw [List.foldl_reverse]
  exact bytesLE_value n n (Nat.le_refl n)

/-! ## What `kdf` computes -/


theorem copy_full (dst src : List Nat) (hl : dst.length = src.length) : copy dst src = src := by
  simp [copy, hl]

theorem putUint32_eq (buf : List Nat) (ct : Nat) (hb : 4 ≤ buf.length) :
    putUint32 buf ct = be32 ct ++ buf.drop 4 := by
  have h1 : (be32 ct).length = 4 := rfl
  unfold putUint32 copy
  rw [List.take_of_length_le (by omega), h1]

theorem putUint32_take (buf : List Nat) (ct : Nat) (hb : 4 ≤ buf.length) :
    (putUint32 buf ct).take 4 = be32 ct := by
  rw [putUint32_eq buf ct hb]
  simp [be32]

theorem putUint32_length (buf : List Nat) (ct : Nat) (hb : 4 ≤ buf.length) :
    (putUint32 buf ct).length = buf.length := by
  rw [putUint32_eq buf ct hb]
  simp [be32]
  omega

theorem kdfBufSize_ge (h : Hash) : 4 ≤ kdfBufSize h ∧ h.BlockSize ≤ kdfBufSize h := by
  unfold kdfBufSize; split <;> omega

theorem kdfBlock_length (h : Hash) (xB yB : List Nat) (ct : Nat)
    (hcap : ∀ m, kdfBufSize h ≤ (h.Sum m).cap) :
    (kdfBlock h xB yB ct).length = kdfBufSize h := by
  have := hcap (xB ++ yB ++ be32 ct)
  simp only [Slice.cap] at this
  simp only [kdfBlock, List.length_take, List.length_append]
  omega

theorem kdfMaskByte_block (h : Hash) (x y c j : Nat) (hj : j < h.BlockSize) :
    kdfMaskByte h x y (c * h.BlockSize + j)
      = (kdfBlock h (bigBytes x) (bigBytes y) ((c + 1) % 4294967296)).getD j 0 := by
  have h1 : (c * h.BlockSize + j) / h.BlockSize = c := by
    rw [Nat.mul_comm, Nat.mul_add_div (by omega), Nat.div_eq_of_lt hj]; rfl
  have h2 : (c * h.BlockSize + j) % h.BlockSize = j := by
    rw [Nat.mul_comm, Nat.mul_add_mod, Nat.mod_eq_of_lt hj]
  simp only [kdfMaskByte, h1, h2]

theorem kdfLoop_eq (h : Hash) (x y : Nat) (hB : 0 < h.BlockSize)
    (hcap : ∀ m, kdfBufSize h ≤ (h.Sum m).cap) :
    ∀ (fuel : Nat) (st : HashState) (buf : List Nat) (c ct off n : Nat)
      (encData pre rest : List Nat),
      encData = pre ++ rest → off = pre.length → n = off + rest.length →
      ct = c % 4294967296 → buf.length = kdfBufSize h →
      (rest ≠ [] → off = c * h.BlockSize) → rest.length ≤ fuel →
      ∃ st', kdfLoop h (bigBytes x) (bigBytes y) (kdfBufSize h) n fuel st buf off ct encData
        = .val (st', pre ++ maskFrom (kdfMaskByte h x y) off rest) := by
  intro fuel
  induction fuel with
  | zero =>
    intro st buf c ct off n encData pre rest he ho hn hct hbuf hoff hfuel
    have hr : rest = [] := List.length_eq_zero.mp (by omega)
    subst hr
    refine ⟨st, ?_⟩
    simp [kdfLoop, hn, he, maskFrom]
  | succ fuel ih =>
    intro st buf c ct off n encData pre rest he ho hn hct hbuf hoff hfuel
    by_cases hr : rest = []
    · subst hr
      refine ⟨st, ?_⟩
      simp [kdfLoop, hn, he, maskFrom]
    · have hpos : 0 < rest.length := List.length_pos.mpr hr
      have hlt : off < n := by omega
      obtain ⟨h4, hBb⟩ := kdfBufSize_ge h
      have hoffc := hoff hr
      have hct' : (ct + 1) % 4294967296 = (c + 1) % 4294967296 := by
        rw [hct]; omega
      simp only [kdfLoop, if_pos hlt, Hash.Reset, Hash.Write, List.nil_append]
      rw [putUint32_take buf _ (by omega), hct']
      have hup : (h.Sum (bigBytes x ++ bigBytes y ++ be32 ((c + 1) % 4294967296))).upTo
          (kdfBufSize h) = .val (kdfBlock h (bigBytes x) (bigBytes y) ((c + 1) % 4294967296)) := by
        simp [Slice.upTo, hcap, kdfBlock]
      rw [hup, Res.val_bind]
      have hblen := kdfBlock_length h (bigBytes x) (bigBytes y) ((c + 1) % 4294967296) hcap
      have hplen := putUint32_length buf ((c + 1) % 4294967296) (by omega)
      have hbuf2 : copy ((putUint32 buf ((c + 1) % 4294967296)).take (kdfBufSize h))
            (kdfBlock h (bigBytes x) (bigBytes y) ((c + 1) % 4294967296))
          ++ (putUint32 buf ((c + 1) % 4294967296)).drop (kdfBufSize h)
          = kdfBlock h (bigBytes x) (bigBytes y) ((c + 1) % 4294967296) := by
        rw [List.drop_of_length_le (by omega), List.append_nil]
        apply copy_full
        rw [List.length_take, hplen, hbuf, hblen]; simp
      rw [hbuf2]
      generalize hxl : (if n - off > h.BlockSize then h.BlockSize else n - off) = xorLen
      have hx1 : xorLen ≤ rest.length := by rw [← hxl]; split <;> omega
      have hx2 : xorLen ≤ h.BlockSize := by rw [← hxl]; split <;> omega
      have hx3 : rest.length ≤ xorLen ∨ xorLen = h.BlockSize := by
        rw [← hxl]; split <;> omega
      have hx4 : 0 < xorLen := by rw [← hxl]; split <;> omega
      have hdrop : encData.drop off = rest := by
        rw [he, ho]; simp
      have htake : encData.take off = pre := by
        rw [he, ho]; simp
      rw [hdrop, htake, xor_eq xorLen rest _ hx1 (by omega), Res.val_bind]
      have hm : maskFrom (fun j => (kdfBlock h (bigBytes x) (bigBytes y)
            ((c + 1) % 4294967296)).getD j 0) 0 (rest.take xorLen)
          = maskFrom (kdfMaskByte h x y) off (rest.take xorLen) := by
        apply maskFrom_congr
        intro j hj
        rw [List.length_take] at hj
        rw [hoffc, kdfMaskByte_block h x y c j (by omega)]
        simp
      rw [hm]
      obtain ⟨st', hst'⟩ := ih
        (bigBytes x ++ bigBytes y ++ be32 ((c + 1) % 4294967296))
        (kdfBlock h (bigBytes x) (bigBytes y) ((c + 1) % 4294967296))
        (c + 1) ((c + 1) % 4294967296) (off + xorLen) n
        (pre ++ (maskFrom (kdfMaskByte h x y) off (rest.take xorLen) ++ rest.drop xorLen))
        (pre ++ maskFrom (kdfMaskByte h x y) off (rest.take xorLen)) (rest.drop xorLen)
        (by simp) (by simp [ho, Nat.min_eq_left hx1])
        (by simp only [List.length_drop]; omega) rfl hblen
        (by
          intro hne
          have : 0 < (rest.drop xorLen).length := List.length_pos.mpr hne
          rw [List.length_drop] at this
          have : xorLen = h.BlockSize := by omega
          rw [this, hoffc, Nat.add_mul]; simp)
        (by simp only [List.length_drop]; omega)
      refine ⟨st', ?_⟩
      rw [hst']
      congr 2
      rw [List.append_assoc]
      congr 1
      conv_rhs => rw [← List.take_append_drop xorLen rest]
      rw [maskFrom_append, List.length_take, Nat.min_eq_left hx1]

theorem kdf_eq (h : Hash) (st : HashState) (x y : Nat) (data : List Nat)
    (hB : 0 < h.BlockSize) (hcap : ∀ m, kdfBufSize h ≤ (h.Sum m).cap) :
    ∃ st', kdf h st x y data = .val (st', kdfSpec h x y data) := by
  obtain ⟨st', hst'⟩ := kdfLoop_eq h x y hB hcap data.length st
    (List.replicate (kdfBufSize h) 0) 0 0 0 data.length data [] data rfl rfl (by simp) rfl
    (by simp) (by intro _; simp) (Nat.le_refl _)
  exact ⟨st', by simpa [kdf, kdfSpec, kdfBufSize] using hst'⟩

/-! ## `nextK` -/

theorem nextKLoop_spec (max : Nat) : ∀ (draws : List Draw) (k0 k : Nat) (rest : List Draw),
    nextKLoop max k0 draws = .val (k, rest) →
    1 ≤ k ∧ ((k = k0 ∧ rest = draws) ∨
      ∃ pre, draws = pre ++ Draw.val k :: rest) := by
  intro draws
  induction draws with
  | nil =>
    intro k0 k rest hk
    unfold nextKLoop at hk
    by_cases h0 : k0 < 1
    · rw [if_pos h0] at hk
      split at hk <;> simp at hk
    · rw [if_neg h0] at hk
      simp only [Res.val.injEq, Prod.mk.injEq] at hk
      exact ⟨by omega, Or.inl ⟨hk.1.symm, hk.2.symm⟩⟩
  | cons d ds ih =>
    intro k0 k rest hk
    unfold nextKLoop at hk
    by_cases h0 : k0 < 1
    · rw [if_pos h0] at hk
      by_cases hm : max = 0
      · rw [if_pos hm] at hk; simp at hk
      · rw [if_neg hm] at hk
        cases d with
        | val n =>
          simp only at hk
          obtain ⟨h1, h2⟩ := ih n k rest hk
          refine ⟨h1, Or.inr ?_⟩
          rcases h2 with ⟨hkn, hr⟩ | ⟨pre, hpre⟩
          · exact ⟨[], by simp [hkn, hr]⟩
          · exact ⟨Draw.val n :: pre, by simp [hpre]⟩
        | fail m => simp at hk
    · rw [if_neg h0] at hk
      simp only [Res.val.injEq, Prod.mk.injEq] at hk
      exact ⟨by omega, Or.inl ⟨hk.1.symm, hk.2.symm⟩⟩

theorem nextK_spec (max : Nat) (draws : List Draw) (k : Nat) (rest : List Draw)
    (hk : nextK draws max = .val (k, rest)) :
    1 ≤ k ∧ ∃ pre, draws = pre ++ Draw.val k :: rest := by
  unfold nextK at hk
  obtain ⟨⟨k0, r0⟩, hr, hl⟩ := Res.bind_eq_val hk
  simp only at hl
  obtain ⟨h1, h2⟩ := nextKLoop_spec max r0 k0 k rest hl
  refine ⟨h1, ?_⟩
  unfold randInt at hr
  split at hr
  · simp at hr
  · cases draws with
    | nil => simp at hr
    | cons d ds =>
      cases d with
      | fail m => simp at hr
      | val n =>
        simp only [Res.val.injEq, Prod.mk.injEq] at hr
        obtain ⟨hn, hds⟩ := hr
        subst hn hds
        rcases h2 with ⟨hkn, hr⟩ | ⟨pre, hpre⟩
        · exact ⟨[], by simp [hkn, hr]⟩
        · exact ⟨Draw.val n :: pre, by simp [hpre]⟩

/-- The loop of `nextK` is `rand.Int` followed by the loop again. -/
theorem nextKLoop_unfold (max k : Nat) (draws : List Draw) :
    nextKLoop max k draws =
      if k < 1 then (randInt draws max).bind fun kr => nextKLoop max kr.1 kr.2
      else .val (k, draws) := by
  cases draws with
  | nil => unfold nextKLoop randInt; split <;> [split; rfl] <;> simp
  | cons d ds =>
    conv_lhs => unfold nextKLoop
    unfold randInt
    split
    · split
      · simp
      · cases d <;> simp
    · rfl

/-- C10. Scalar sampling bound: when every value the random source delivers is below
`max`, a scalar `k` that `nextK` returns satisfies `1 ≤ k ≤ max - 1`. -/
theorem nextK_range (max : Nat) (draws : List Draw) (k : Nat) (rest : List Draw)
    (hsrc : ∀ n, Draw.val n ∈ draws → n < max)
    (hk : nextK draws max = .val (k, rest)) :
    1 ≤ k ∧ k ≤ max - 1 := by
  obtain ⟨h1, pre, hpre⟩ := nextK_spec max draws k rest hk
  have : k < max := hsrc k (by rw [hpre]; simp)
  omega

/-- C10 at a concrete run: with `max = 257` the source delivers 0, 0, 200 and `nextK`
returns 200. -/
theorem nextK_range_witness :
    nextK [Draw.val 0, Draw.val 0, Draw.val 200, Draw.val 7] 257
        = .val (200, [Draw.val 7]) ∧ (1 ≤ 200 ∧ 200 ≤ 257 - 1) :=
  ⟨by decide, nextK_range 257 [Draw.val 0, Draw.val 0, Draw.val 200, Draw.val 7] 200
    [Draw.val 7] (by intro n hn; simp at hn; omega) (by decide)⟩

/-! ## `kdf` on the empty buffer, and lengths -/

theorem kdf_nil (h : Hash) (st : HashState) (x y : Nat) : kdf h st x y [] = .val (st, []) := by
  simp [kdf, kdfLoop]

theorem kdfLoop_length (h : Hash) (xB yB : List Nat) (bufSize n : Nat) :
    ∀ (fuel : Nat) (st : HashState) (buf : List Nat) (off ct : Nat) (encData : List Nat)
      (st' : HashState) (out : List Nat),
      kdfLoop h xB yB bufSize n fuel st buf off ct encData = .val (st', out) →
      out.length = encData.length := by
  intro fuel
  induction fuel with
  | zero =>
    intro st buf off ct encData st' out hk
    unfold kdfLoop at hk
    split at hk
    · simp at hk
    · simp only [Res.val.injEq, Prod.mk.injEq] at hk
      rw [← hk.2]
  | succ fuel ih =>
    intro st buf off ct encData st' out hk
    unfold kdfLoop at hk
    split at hk
    · obtain ⟨src, _, hk⟩ := Res.bind_eq_val hk
      obtain ⟨masked, hm, hk⟩ := Res.bind_eq_val hk
      have hlen := ih _ _ _ _ _ _ _ hk
      rw [hlen, List.length_append, xor_length hm, List.length_take, List.length_drop]
      omega
    · simp only [Res.val.injEq, Prod.mk.injEq] at hk
      rw [← hk.2]

theorem kdf_length (h : Hash) (st : HashState) (x y : Nat) (data : List Nat)
    (st' : HashState) (out : List Nat) (hk : kdf h st x y data = .val (st', out)) :
    out.length = data.length :=
  kdfLoop_length h _ _ _ _ _ _ _ _ _ _ _ _ hk

theorem copy_replicate (l : List Nat) : copy (List.replicate l.length 0) l = l := by
  simp [copy]

/-! ## `Encrypt` on the empty payload -/

theorem encryptLoop_nil (h : Hash) (pub : PublicKey) :
    ∀ (fuel : Nat) (draws : List Draw) (st : HashState),
      (encryptLoop h pub [] fuel draws st []).isVal = false := by
  intro fuel
  induction fuel with
  | zero => intro draws st; rfl
  | succ fuel ih =>
    intro draws st
    unfold encryptLoop
    cases hk : nextK draws pub.Curve.N with
    | val kr => simpa [kdf_nil, notEncrypted] using ih kr.2 st
    | fail m => rfl
    | crash c => rfl
    | spin => rfl

/-- C4. Empty payload: for every hash, public key, fuel and answers of the random source,
`Encrypt` on the empty payload returns no ciphertext; `notEncrypted` accepts the empty
`c2`, so the retry loop never leaves. -/
theorem Encrypt_empty_never_returns (h : Hash) (fuel : Nat) (draws : List Draw)
    (pub : PublicKey) : (Encrypt h fuel draws pub []).isVal = false := by
  unfold Encrypt
  have hl := encryptLoop_nil h pub fuel draws []
  have hc : copy (List.replicate ([] : List Nat).length 0) [] = [] := rfl
  rw [hc]
  simp only []
  cases he : encryptLoop h pub [] fuel draws [] [] with
  | val s => rw [he] at hl; simp [Res.isVal] at hl
  | fail m => rfl
  | crash c => rfl
  | spin => rfl

/-! ## `Decrypt` -/

theorem upTo_of_le (inp : Slice) (n : Nat) (hn : n ≤ inp.elems.length) :
    inp.upTo n = .val (inp.elems.take n) := by
  unfold Slice.upTo Slice.cap
  rw [if_pos (by omega), List.take_append_of_le_length hn]

theorem copy_replicate_take (l : List Nat) (n : Nat) (hn : n ≤ l.length) :
    copy (List.replicate n 0) (l.take n) = l.take n := by
  apply copy_full
  simp [Nat.min_eq_left hn]

/-- C3. Truncated input: on an input shorter than 65 + 32 = 97 bytes `Decrypt` (256-bit
curve, 32-byte digest) panics, or returns the error of the infinity test; it returns
neither a plaintext nor the error "invalid cipher text". -/
theorem Decrypt_truncated (h : Hash) (U : Util) (priv : PrivateKey) (inp : Slice)
    (hBits : priv.Curve.BitSize = 256) (hSize : h.Size = 32)
    (hlen : inp.elems.length < 97) :
    (∃ c, Decrypt h U priv inp = .crash c) ∨
      Decrypt h U priv inp = .fail "[h]C1 at infinity" := by
  unfold Decrypt
  simp only [hBits, hSize]
  cases hup : inp.upTo ((256 + 7) / 8 * 2 + 1) with
  | val src =>
    simp only [Res.val_bind]
    have h97 : inp.elems.length < (256 + 7) / 8 * 2 + 1 + 32 := by omega
    cases priv.Curve.Unmarshal (copy (List.replicate ((256 + 7) / 8 * 2 + 1) 0) src) with
    | none => exact Or.inl ⟨_, rfl⟩
    | some c1p =>
      simp only [if_pos h97]
      split
      · exact Or.inr rfl
      · exact Or.inl ⟨_, rfl⟩
  | fail m => simp [Slice.upTo] at hup; split at hup <;> simp at hup
  | crash c => exact Or.inl ⟨c, rfl⟩
  | spin => simp [Slice.upTo] at hup; split at hup <;> simp at hup

/-- C3 at concrete inputs: the empty input panics in `in[:c1Len]`, and the 65-byte
encoding of the base point alone panics in `make([]byte, c2Len)` with `c2Len = -32`. -/
theorem Decrypt_truncated_witness :
    Decrypt sampleHash sampleUtil samplePriv (Slice.ofList []) = .crash .sliceBounds ∧
    Decrypt sampleHash sampleUtil samplePriv (Slice.ofList (sampleCurve.Marshal 1 2))
      = .crash .makeNegative ∧
    ((∃ c, Decrypt sampleHash sampleUtil samplePriv (Slice.ofList (sampleCurve.Marshal 1 2))
        = .crash c) ∨
      Decrypt sampleHash sampleUtil samplePriv (Slice.ofList (sampleCurve.Marshal 1 2))
        = .fail "[h]C1 at infinity") :=
  ⟨by decide, by decide,
    Decrypt_truncated sampleHash sampleUtil samplePriv (Slice.ofList (sampleCurve.Marshal 1 2))
      rfl rfl (by decide)⟩

/-- C8. Malformed C1: when the first 65 bytes of an input of at least 97 bytes do not
decode (`Unmarshal` gives `(nil, nil)`), `Decrypt` on a 256-bit curve returns no error:
it passes the nil coordinates to `ScalarMult` and panics. -/
theorem Decrypt_malformed_C1 (h : Hash) (U : Util) (priv : PrivateKey) (inp : Slice)
    (hBits : priv.Curve.BitSize = 256) (hlen : 97 ≤ inp.elems.length)
    (hbad : priv.Curve.Unmarshal (inp.elems.take 65) = none) :
    Decrypt h U priv inp = .crash .nilDeref := by
  unfold Decrypt
  simp only [hBits]
  rw [upTo_of_le inp _ (by omega), Res.val_bind, copy_replicate_take _ _ (by omega)]
  have h65 : (256 + 7) / 8 * 2 + 1 = 65 := rfl
  rw [h65, hbad]

/-- C8 at a concrete input: 97 zero bytes (tag byte `0x00`) make `Decrypt` panic. -/
theorem Decrypt_malformed_C1_witness :
    sampleCurve.Unmarshal ((List.replicate 97 0).take 65) = none ∧
    Decrypt sampleHash sampleUtil samplePriv (Slice.ofList (List.replicate 97 0))
      = .crash .nilDeref :=
  ⟨by decide, Decrypt_malformed_C1 sampleHash sampleUtil samplePriv
    (Slice.ofList (List.replicate 97 0)) rfl (by decide) (by decide)⟩

theorem Decrypt_eq_core (h : Hash) (U : Util) (priv : PrivateKey) (inp : Slice)
    (hlen : c1Len priv.Curve + h.Size ≤ inp.elems.length) :
    Decrypt h U priv inp = decryptCore h U priv
      (inp.elems.take (inp.elems.length - h.Size))
      (inp.elems.drop (inp.elems.length - h.Size)) := by
  unfold Decrypt decryptCore
  simp only []
  have hL : (priv.Curve.BitSize + 7) / 8 * 2 + 1 = c1Len priv.Curve := rfl
  rw [hL, upTo_of_le inp _ (by omega), Res.val_bind, copy_replicate_take _ _ (by omega)]
  have ht : (inp.elems.take (inp.elems.length - h.Size)).take (c1Len priv.Curve)
      = inp.elems.take (c1Len priv.Curve) := by
    rw [List.take_take, Nat.min_eq_left (by omega)]
  have hc2 : copy (List.replicate (inp.elems.length - c1Len priv.Curve - h.Size) 0)
        ((inp.elems.drop (c1Len priv.Curve)).take
          (inp.elems.length - c1Len priv.Curve - h.Size))
      = (inp.elems.take (inp.elems.length - h.Size)).drop (c1Len priv.Curve) := by
    rw [copy_full]
    · rw [List.drop_take]
      congr 1
      omega
    · simp only [List.length_replicate, List.length_take, List.length_drop]
      omega
  have hsum : c1Len priv.Curve + (inp.elems.length - c1Len priv.Curve - h.Size)
      = inp.elems.length - h.Size := by omega
  have hnlt : ¬ inp.elems.length < c1Len priv.Curve + h.Size := by omega
  rw [ht, hc2, hsum]
  simp only [if_neg hnlt]
  rfl


theorem decryptCore_tag_mismatch (h : Hash) (U : Util) (priv : PrivateKey)
    (body tag tag' M : List Nat) (hacc : decryptCore h U priv body tag = .val M)
    (hne : tag' ≠ tag) : decryptCore h U priv body tag' = .fail "invalid cipher text" := by
  unfold decryptCore at hacc ⊢
  cases hu : priv.Curve.Unmarshal (body.take (c1Len priv.Curve)) with
  | none => rw [hu] at hacc; simp at hacc
  | some c1p =>
    rw [hu] at hacc
    simp only at hacc ⊢
    split at hacc
    · simp at hacc
    · rename_i hinf
      rw [if_neg hinf]
      obtain ⟨sc, hk, hv⟩ := Res.bind_eq_val hacc
      rw [hk, Res.val_bind]
      split at hv
      · simp at hv
      · rename_i htag
        rw [if_pos]
        rw [not_not.mp htag]
        exact fun e => hne e.symm

theorem Decrypt_val_length (h : Hash) (U : Util) (priv : PrivateKey) (inp : Slice)
    (M : List Nat) (hacc : Decrypt h U priv inp = .val M) :
    c1Len priv.Curve + h.Size ≤ inp.elems.length := by
  by_contra hlt
  unfold Decrypt at hacc
  have hL : (priv.Curve.BitSize + 7) / 8 * 2 + 1 = c1Len priv.Curve := rfl
  simp only [hL] at hacc
  obtain ⟨src, _, hv⟩ := Res.bind_eq_val hacc
  split at hv
  · simp at hv
  · split at hv
    · simp at hv
    · rw [if_pos (by omega)] at hv
      simp at hv

theorem xor_pow_ne (x b : Nat) : x ^^^ 2 ^ b ≠ x := by
  intro hx
  have h1 : x ^^^ (x ^^^ 2 ^ b) = x ^^^ x := by rw [hx]
  rw [Nat.xor_cancel_left, Nat.xor_self] at h1
  exact (Nat.pos_pow_of_pos b (by decide)).ne' h1

theorem flipBit_length (l : List Nat) (j b : Nat) : (flipBit l j b).length = l.length := by
  simp [flipBit]

theorem flipBit_take (l : List Nat) (j b n : Nat) (hn : n ≤ j) :
    (flipBit l j b).take n = l.take n := by
  unfold flipBit
  apply List.ext_getElem?
  intro i
  simp only [List.getElem?_take]
  split
  · rw [List.getElem?_set_ne (by omega)]
  · rfl

theorem flipBit_drop_ne (l : List Nat) (j b n : Nat) (hn : n ≤ j) (hj : j < l.length) :
    (flipBit l j b).drop n ≠ l.drop n := by
  intro he
  have h1 : ((flipBit l j b).drop n)[j - n]? = (l.drop n)[j - n]? := by rw [he]
  simp only [List.getElem?_drop, flipBit] at h1
  have hnj : n + (j - n) = j := by omega
  rw [hnj, List.getElem?_set_self (by simpa using hj), List.getElem?_eq_getElem hj] at h1
  simp only [Option.some.injEq] at h1
  have : l.getD j 0 = l[j] := by simp [List.getD, List.getElem?_eq_getElem hj]
  rw [this] at h1
  exact xor_pow_ne _ _ h1

/-- C7. Tamper detection on C3: when `Decrypt` accepts a ciphertext `c` (32-byte digest),
flipping any bit of any of its last 32 bytes makes `Decrypt` return the error
"invalid cipher text" instead of a plaintext. -/
theorem Decrypt_detects_C3_tamper (h : Hash) (U : Util) (priv : PrivateKey)
    (c c' : Slice) (M : List Nat) (j b : Nat) (hSize : h.Size = 32)
    (hacc : Decrypt h U priv c = .val M)
    (hj1 : c.elems.length - 32 ≤ j) (hj2 : j < c.elems.length)
    (hflip : c'.elems = flipBit c.elems j b) :
    Decrypt h U priv c' = .fail "invalid cipher text" := by
  have hlen := Decrypt_val_length h U priv c M hacc
  have hl' : c'.elems.length = c.elems.length := by rw [hflip, flipBit_length]
  rw [Decrypt_eq_core h U priv c hlen] at hacc
  rw [Decrypt_eq_core h U priv c' (by omega), hl', hSize, hflip,
    flipBit_take _ _ _ _ hj1]
  rw [hSize] at hacc
  exact decryptCore_tag_mismatch h U priv _ _ _ M hacc (flipBit_drop_ne _ _ _ _ hj1 hj2)

theorem sampleHash_cap (m : List Nat) : kdfBufSize sampleHash ≤ (sampleHash.Sum m).cap := by
  simp [kdfBufSize, sampleHash, Slice.cap, sampleDigest]

theorem sampleHash_digest_length (m : List Nat) : (sampleHash.Sum m).elems.length = 32 := by
  simp [sampleHash, sampleDigest]

theorem sampleCurve_marshal_length (x y : Nat) : (sampleCurve.Marshal x y).length = 65 := by
  simp only [sampleCurve, pad32, List.length_cons, List.length_append, List.length_drop,
    List.length_replicate]
  omega

theorem Decrypt_eq_spec (h : Hash) (U : Util) (priv : PrivateKey) (inp : Slice) (p : Nat × Nat)
    (hBits : priv.Curve.BitSize = 256) (hSize : h.Size = 32) (hB : 0 < h.BlockSize)
    (hcap : ∀ m, kdfBufSize h ≤ (h.Sum m).cap) (hlen : 97 ≤ inp.elems.length)
    (hdec : priv.Curve.Unmarshal (inp.elems.take 65) = some p)
    (hinf : U.IsEcPointInfinity (priv.Curve.ScalarMult p.1 p.2 sm2HBytes).1
      (priv.Curve.ScalarMult p.1 p.2 sm2HBytes).2 = false) :
    Decrypt h U priv inp =
      if h.digest (bigBytes (priv.Curve.ScalarMult p.1 p.2 (bigBytes priv.D)).1
            ++ kdfSpec h (priv.Curve.ScalarMult p.1 p.2 (bigBytes priv.D)).1
                (priv.Curve.ScalarMult p.1 p.2 (bigBytes priv.D)).2
                ((inp.elems.drop 65).take (inp.elems.length - 97))
            ++ bigBytes (priv.Curve.ScalarMult p.1 p.2 (bigBytes priv.D)).2)
          ≠ inp.elems.drop (inp.elems.length - 32)
      then .fail "invalid cipher text"
      else .val (kdfSpec h (priv.Curve.ScalarMult p.1 p.2 (bigBytes priv.D)).1
                (priv.Curve.ScalarMult p.1 p.2 (bigBytes priv.D)).2
                ((inp.elems.drop 65).take (inp.elems.length - 97))) := by
  have hL : c1Len priv.Curve = 65 := by simp [c1Len, hBits]
  rw [Decrypt_eq_core h U priv inp (by omega)]
  unfold decryptCore
  rw [hL, hSize, List.take_take, Nat.min_eq_left (by omega), hdec]
  simp only [hinf, Bool.false_eq_true, if_false]
  have hd : (inp.elems.take (inp.elems.length - 32)).drop 65
      = (inp.elems.drop 65).take (inp.elems.length - 97) := by
    rw [List.drop_take, Nat.sub_sub]
  rw [hd]
  obtain ⟨st', hst'⟩ := kdf_eq h [] (priv.Curve.ScalarMult p.1 p.2 (bigBytes priv.D)).1
    (priv.Curve.ScalarMult p.1 p.2 (bigBytes priv.D)).2
    ((inp.elems.drop 65).take (inp.elems.length - 97)) hB hcap
  rw [hst', Res.val_bind]

/-- `Decrypt` in terms of the mask the loop of `kdf` applies (`kdfSpec`, not the stream
of section 4.3): on a 256-bit curve with a 32-byte digest whose `Sum(nil)` can be sliced
to the buffer size, for an input of at least 97 bytes whose first 65 bytes decode to a
point `p` (not reported at infinity), with `S = D·p` and `C2` the bytes between `C1` and
the last 32: `Decrypt` returns `M` exactly when `M` is `C2` XOR that mask and the last 32
bytes are `digest(X(S) ∥ M ∥ Y(S))`; when it returns no plaintext it returns the error
"invalid cipher text". -/
theorem Decrypt_plaintext_iff_tag (h : Hash) (U : Util) (priv : PrivateKey) (inp : Slice)
    (p : Nat × Nat)
    (hBits : priv.Curve.BitSize = 256) (hSize : h.Size = 32) (hB : 0 < h.BlockSize)
    (hcap : ∀ m, kdfBufSize h ≤ (h.Sum m).cap) (hlen : 97 ≤ inp.elems.length)
    (hdec : priv.Curve.Unmarshal (inp.elems.take 65) = some p)
    (hinf : U.IsEcPointInfinity (priv.Curve.ScalarMult p.1 p.2 sm2HBytes).1
      (priv.Curve.ScalarMult p.1 p.2 sm2HBytes).2 = false) :
    (∀ M, Decrypt h U priv inp = .val M ↔
      (M = kdfSpec h (priv.Curve.ScalarMult p.1 p.2 (bigBytes priv.D)).1
            (priv.Curve.ScalarMult p.1 p.2 (bigBytes priv.D)).2
            ((inp.elems.drop 65).take (inp.elems.length - 97)) ∧
       inp.elems.drop (inp.elems.length - 32)
         = h.digest (bigBytes (priv.Curve.ScalarMult p.1 p.2 (bigBytes priv.D)).1 ++ M
            ++ bigBytes (priv.Curve.ScalarMult p.1 p.2 (bigBytes priv.D)).2))) ∧
    ((∀ M, Decrypt h U priv inp ≠ .val M) →
      Decrypt h U priv inp = .fail "invalid cipher text") := by
  have heq := Decrypt_eq_spec h U priv inp p hBits hSize hB hcap hlen hdec hinf
  constructor
  · intro M
    rw [heq]
    split
    · rename_i hne
      constructor
      · intro hv; simp at hv
      · rintro ⟨hM, htag⟩
        rw [hM] at htag
        exact absurd htag.symm hne
    · rename_i heq
      constructor
      · intro hv
        simp only [Res.val.injEq] at hv
        subst hv
        exact ⟨rfl, (not_not.mp heq).symm⟩
      · rintro ⟨hM, _⟩
        rw [hM]
  · intro hno
    by_cases hc : h.digest (bigBytes (priv.Curve.ScalarMult p.1 p.2 (bigBytes priv.D)).1
            ++ kdfSpec h (priv.Curve.ScalarMult p.1 p.2 (bigBytes priv.D)).1
                (priv.Curve.ScalarMult p.1 p.2 (bigBytes priv.D)).2
                ((inp.elems.drop 65).take (inp.elems.length - 97))
            ++ bigBytes (priv.Curve.ScalarMult p.1 p.2 (bigBytes priv.D)).2)
          ≠ inp.elems.drop (inp.elems.length - 32)
    · rw [heq, if_pos hc]
    · rw [if_neg hc] at heq
      exact absurd heq (hno _)

/-- The sample ciphertext of "hello" decodes to `(3, 6)`, its tag matches, and `Decrypt`
returns "hello", the five bytes of `C2` XORed with the mask of `kdf`. -/
theorem Decrypt_plaintext_iff_tag_witness :
    Decrypt sampleHash sampleUtil samplePriv (Slice.ofList sampleCipher) = .val helloBytes ∧
    helloBytes = kdfSpec sampleHash 15 30 [70, 56, 224, 215, 133] :=
  ⟨by decide,
   ((Decrypt_plaintext_iff_tag sampleHash sampleUtil samplePriv (Slice.ofList sampleCipher)
      (3, 6) rfl rfl (by decide) sampleHash_cap (by decide) (by decide) (by decide)).1
      helloBytes).1 (by decide) |>.1⟩

/-- C7 at a concrete input: the sample ciphertext is accepted, and with the lowest bit of
its last byte flipped it is rejected. -/
theorem Decrypt_detects_C3_tamper_witness :
    Decrypt sampleHash sampleUtil samplePriv (Slice.ofList sampleCipher) = .val helloBytes ∧
    Decrypt sampleHash sampleUtil samplePriv (Slice.ofList (flipBit sampleCipher 101 0))
      = .fail "invalid cipher text" :=
  ⟨by decide,
   Decrypt_detects_C3_tamper sampleHash sampleUtil samplePriv (Slice.ofList sampleCipher)
     (Slice.ofList (flipBit sampleCipher 101 0)) helloBytes 101 0 rfl (by decide)
     (by decide) (by decide) rfl⟩

/-! ## `Encrypt` -/

theorem encryptLoop_val (h : Hash) (pub : PublicKey) (inp : List Nat) :
    ∀ (fuel : Nat) (draws : List Draw) (st : HashState) (c2 : List Nat) (s : EncState),
      encryptLoop h pub inp fuel draws st c2 = .val s →
      s.c2.length = c2.length ∧
      ∃ pre k, draws = pre ++ Draw.val k :: s.rest ∧ 1 ≤ k ∧
        s.c1 = pub.Curve.Marshal (pub.Curve.ScalarBaseMult (bigBytes k)).1
          (pub.Curve.ScalarBaseMult (bigBytes k)).2 ∧
        s.kPBx = (pub.Curve.ScalarMult pub.X pub.Y (bigBytes k)).1 ∧
        s.kPBy = (pub.Curve.ScalarMult pub.X pub.Y (bigBytes k)).2 := by
  intro fuel
  induction fuel with
  | zero => intro draws st c2 s hs; simp [encryptLoop] at hs
  | succ fuel ih =>
    intro draws st c2 s hs
    unfold encryptLoop at hs
    obtain ⟨kr, hk, hs⟩ := Res.bind_eq_val hs
    obtain ⟨sc, hkdf, hs⟩ := Res.bind_eq_val hs
    obtain ⟨ne, _, hs⟩ := Res.bind_eq_val hs
    obtain ⟨hk1, pre, hpre⟩ := nextK_spec _ _ kr.1 kr.2 hk
    have hlen := kdf_length h st _ _ c2 sc.1 sc.2 hkdf
    cases ne with
    | false =>
      simp only [Bool.not_false, if_true, Res.val.injEq] at hs
      subst hs
      exact ⟨hlen, pre, kr.1, hpre, hk1, rfl, rfl, rfl⟩
    | true =>
      simp only [Bool.not_true, Bool.false_eq_true, if_false] at hs
      obtain ⟨hl2, pre2, k, hd2, hk2, hc1, hx, hy⟩ := ih kr.2 sc.1 sc.2 s hs
      refine ⟨by rw [hl2, hlen], pre ++ Draw.val kr.1 :: pre2, k, ?_, hk2, hc1, hx, hy⟩
      rw [hpre, hd2]
      simp

/-- C5. Ciphertext layout: with a 65-byte point encoding and a 32-byte digest, a
ciphertext `c` that `Encrypt` returns for `M` has length `65 + len(M) + 32` and is
`C1 ∥ C2 ∥ C3`: `C1`, its first 65 bytes, encodes `k·G` for the last scalar `k` the retry
loop took from the random source (the answers after it are left unconsumed), `C2` is as
long as `M`, and `C3`, its last 32 bytes, is `digest(X(S) ∥ M ∥ Y(S))` for `S = k·pub`. -/
theorem Encrypt_layout (h : Hash) (fuel : Nat) (draws : List Draw) (pub : PublicKey)
    (M c : List Nat)
    (hM : ∀ x y, (pub.Curve.Marshal x y).length = 65)
    (hD : ∀ m, (h.Sum m).elems.length = 32)
    (henc : Encrypt h fuel draws pub M = .val c) :
    c.length = 65 + M.length + 32 ∧
    ∃ s pre k, encryptLoop h pub M fuel draws [] M = .val s ∧
      draws = pre ++ Draw.val k :: s.rest ∧ 1 ≤ k ∧ s.c2.length = M.length ∧
      c = pub.Curve.Marshal (pub.Curve.ScalarBaseMult (bigBytes k)).1
            (pub.Curve.ScalarBaseMult (bigBytes k)).2
          ++ s.c2
          ++ h.digest (bigBytes (pub.Curve.ScalarMult pub.X pub.Y (bigBytes k)).1 ++ M
              ++ bigBytes (pub.Curve.ScalarMult pub.X pub.Y (bigBytes k)).2) ∧
      c.take 65 = pub.Curve.Marshal (pub.Curve.ScalarBaseMult (bigBytes k)).1
            (pub.Curve.ScalarBaseMult (bigBytes k)).2 ∧
      (c.drop 65).take M.length = s.c2 ∧
      c.drop (65 + M.length)
        = h.digest (bigBytes (pub.Curve.ScalarMult pub.X pub.Y (bigBytes k)).1 ++ M
              ++ bigBytes (pub.Curve.ScalarMult pub.X pub.Y (bigBytes k)).2) := by
  unfold Encrypt at henc
  simp only [] at henc
  rw [copy_replicate] at henc
  obtain ⟨s, hs, hv⟩ := Res.bind_eq_val henc
  obtain ⟨hl, pre, k, hd, hk, hc1, hx, hy⟩ := encryptLoop_val h pub M _ _ _ _ s hs
  simp only [Res.val.injEq, Hash.Reset, Hash.Write, List.nil_append] at hv
  have hc : c = pub.Curve.Marshal (pub.Curve.ScalarBaseMult (bigBytes k)).1
            (pub.Curve.ScalarBaseMult (bigBytes k)).2
          ++ s.c2
          ++ h.digest (bigBytes (pub.Curve.ScalarMult pub.X pub.Y (bigBytes k)).1 ++ M
              ++ bigBytes (pub.Curve.ScalarMult pub.X pub.Y (bigBytes k)).2) := by
    rw [← hv, hc1, hx, hy]; rfl
  have hm := hM (pub.Curve.ScalarBaseMult (bigBytes k)).1 (pub.Curve.ScalarBaseMult (bigBytes k)).2
  have hdl : (h.digest (bigBytes (pub.Curve.ScalarMult pub.X pub.Y (bigBytes k)).1 ++ M
              ++ bigBytes (pub.Curve.ScalarMult pub.X pub.Y (bigBytes k)).2)).length = 32 := hD _
  refine ⟨?_, s, pre, k, hs, hd, hk, hl, hc, ?_, ?_, ?_⟩
  · rw [hc]; simp only [List.length_append, hm, hl, hdl]
  · rw [hc, List.append_assoc, List.take_left' hm]
  · rw [hc, List.append_assoc, List.drop_left' hm, List.take_left' hl]
  · rw [hc, List.drop_left']
    rw [List.length_append, hm, hl]

/-- C5 at a concrete run: "hello" under the sample key with the source answering 0, 3
gives the 102-byte sample ciphertext. -/
theorem Encrypt_layout_witness :
    Encrypt sampleHash 5 [Draw.val 0, Draw.val 3] samplePub helloBytes = .val sampleCipher ∧
    sampleCipher.length = 65 + helloBytes.length + 32 :=
  ⟨by decide,
   (Encrypt_layout sampleHash 5 [Draw.val 0, Draw.val 3] samplePub helloBytes sampleCipher
      sampleCurve_marshal_length sampleHash_digest_length (by decide)).1⟩

/-! ## `Sign` -/

theorem signOuter_val (U : Util) (C : P256V1Curve) (D e : Int) :
    ∀ (fuel : Nat) (draws : List Draw) (r s : Int),
      signOuter U C D e fuel draws = .val (r, s) → s = 0 := by
  intro fuel
  induction fuel with
  | zero => intro draws r s hs; simp [signOuter] at hs
  | succ fuel ih =>
    intro draws r s hs
    unfold signOuter at hs
    obtain ⟨rkd, _, hs⟩ := Res.bind_eq_val hs
    simp only [] at hs
    split at hs
    · rename_i h0
      simp only [Res.val.injEq, Prod.mk.injEq] at hs
      rw [← hs.2]; exact h0
    · exact ih _ _ _ hs

/-- C2. Signature range: `Sign` hands `(r, s)` to `asn1.Marshal` as a `[]big.Int`, which
the library rejects for every pair.  So for every key, user id, message, fuel and random
answers `Sign` returns no signature; when its loops are left its result is the error of
`asn1.Marshal`; and every signature it returns (there is none) encodes a pair with
`1 ≤ r < N` and `1 ≤ s < N`. -/
theorem Sign_signature_range (h : Hash) (U : Util) (fuel : Nat) (draws : List Draw)
    (priv : PrivateKey) (userId : Option (List Nat)) (inp : List Nat) :
    (Sign h U asn1Marshal fuel draws priv userId inp).isVal = false ∧
    (∀ r s : Int, signPair h U fuel draws priv userId inp = .val (r, s) →
      Sign h U asn1Marshal fuel draws priv userId inp
        = .fail "asn1: structure error: struct contains unexported fields") ∧
    (∀ sig, Sign h U asn1Marshal fuel draws priv userId inp = .val sig →
      ∃ r s : Int, signPair h U fuel draws priv userId inp = .val (r, s) ∧
        asn1Marshal r s = .val sig ∧
        1 ≤ r ∧ r < priv.Curve.N ∧ 1 ≤ s ∧ s < priv.Curve.N) := by
  have hno : ∀ sig, Sign h U asn1Marshal fuel draws priv userId inp ≠ .val sig := by
    intro sig hsig
    unfold Sign at hsig
    obtain ⟨rs, _, hv⟩ := Res.bind_eq_val hsig
    simp [asn1Marshal] at hv
  refine ⟨?_, ?_, ?_⟩
  · cases hS : Sign h U asn1Marshal fuel draws priv userId inp with
    | val sig => exact absurd hS (hno sig)
    | fail m => rfl
    | crash c => rfl
    | spin => rfl
  · intro r s hp
    unfold Sign
    rw [hp]
    rfl
  · intro sig hsig
    exact absurd hsig (hno sig)

/-! ## Runs that show the defects -/

/-- C1. Round trip after a retry: under the sample key pair (`pub = 5·G`), with the random
source answering 17 and then 3, `Encrypt` returns a ciphertext for the payload `[0, 1]`
that `Decrypt` rejects: the mask of the rejected attempt `k = 17` stays in `c2`. -/
theorem Encrypt_retry_breaks_round_trip :
    sampleCurve.ScalarBaseMult (bigBytes samplePriv.D) = (samplePub.X, samplePub.Y) ∧
    Encrypt sampleHash 5 [Draw.val 17, Draw.val 3] samplePub [0, 1] = .val retryCipher ∧
    Decrypt sampleHash sampleUtil samplePriv (Slice.ofList retryCipher)
      = .fail "invalid cipher text" := by
  refine ⟨by decide, by decide, by decide⟩

/-- C9. The mask of `kdf` against the standard stream: with a 32-byte digest and a 16-byte
block size, byte 16 of the data is masked with byte 0 of the second digest, not with
byte 16 of the first; with a 64-byte block size `tmp[:bufSize]` panics. -/
theorem kdf_differs_from_standard_stream :
    kdf sampleHash [] 3 4 (List.replicate 17 0)
      = .val ([3, 4, 0, 0, 0, 2],
          [8, 17, 26, 35, 44, 53, 62, 71, 80, 89, 98, 107, 116, 125, 134, 143, 9]) ∧
    kdfStd sampleHash 3 4 (List.replicate 17 0)
      = [8, 17, 26, 35, 44, 53, 62, 71, 80, 89, 98, 107, 116, 125, 134, 143, 152] ∧
    kdf wideHash [] 3 4 [1, 2, 3] = .crash .sliceBounds := by
  refine ⟨by decide, by decide, by decide⟩

/-! ## Round trip when the first attempt is kept -/

theorem kdfSpec_involutive (h : Hash) (x y : Nat) (data : List Nat) :
    kdfSpec h x y (kdfSpec h x y data) = data :=
  maskFrom_involutive _ _ _

theorem kdfSpec_length (h : Hash) (x y : Nat) (data : List Nat) :
    (kdfSpec h x y data).length = data.length :=
  maskFrom_length _ _ _

/-- A run of `Encrypt` whose loop body executes once (fuel 1): the ciphertext is
`C1 ∥ (M XOR mask) ∥ C3` for the scalar `k` that `nextK` returned. -/
theorem Encrypt_single_attempt (h : Hash) (draws : List Draw) (pub : PublicKey)
    (M c : List Nat) (hB : 0 < h.BlockSize) (hcap : ∀ m, kdfBufSize h ≤ (h.Sum m).cap)
    (henc : Encrypt h 1 draws pub M = .val c) :
    ∃ k rest, nextK draws pub.Curve.N = .val (k, rest) ∧
      c = pub.Curve.Marshal (pub.Curve.ScalarBaseMult (bigBytes k)).1
            (pub.Curve.ScalarBaseMult (bigBytes k)).2
          ++ kdfSpec h (pub.Curve.ScalarMult pub.X pub.Y (bigBytes k)).1
              (pub.Curve.ScalarMult pub.X pub.Y (bigBytes k)).2 M
          ++ h.digest (bigBytes (pub.Curve.ScalarMult pub.X pub.Y (bigBytes k)).1 ++ M
              ++ bigBytes (pub.Curve.ScalarMult pub.X pub.Y (bigBytes k)).2) := by
  unfold Encrypt at henc
  simp only [] at henc
  rw [copy_replicate] at henc
  obtain ⟨s, hs, hv⟩ := Res.bind_eq_val henc
  unfold encryptLoop at hs
  obtain ⟨kr, hk, hs⟩ := Res.bind_eq_val hs
  obtain ⟨st', hst'⟩ := kdf_eq h [] (pub.Curve.ScalarMult pub.X pub.Y (bigBytes kr.1)).1
    (pub.Curve.ScalarMult pub.X pub.Y (bigBytes kr.1)).2 M hB hcap
  simp only [] at hs
  rw [hst', Res.val_bind] at hs
  obtain ⟨ne, _, hs⟩ := Res.bind_eq_val hs
  cases ne with
  | true => simp [encryptLoop] at hs
  | false =>
    simp only [Bool.not_false, if_true, Res.val.injEq] at hs
    subst hs
    refine ⟨kr.1, kr.2, hk, ?_⟩
    simp only [Res.val.injEq, Hash.Reset, Hash.Write, List.nil_append] at hv
    rw [← hv]; rfl

/-- Round trip for a run of `Encrypt` whose loop body executes once, with `k` the scalar
`nextK` returned: under the contracts of the collaborators (32-byte digest whose
`Sum(nil)` can be sliced to the buffer size, 65-byte encoding that `Unmarshal` inverts at
`k·G`, `k·G` not reported at infinity, and the shared point `D·(k·G) = k·pub`), `Decrypt`
returns the payload. -/
theorem round_trip_single_attempt (h : Hash) (U : Util) (priv : PrivateKey) (pub : PublicKey)
    (draws : List Draw) (M c : List Nat) (k : Nat) (rest : List Draw)
    (hCurve : priv.Curve = pub.Curve) (hBits : priv.Curve.BitSize = 256)
    (hSize : h.Size = 32) (hD : ∀ m, (h.Sum m).elems.length = 32)
    (hB : 0 < h.BlockSize) (hcap : ∀ m, kdfBufSize h ≤ (h.Sum m).cap)
    (hM : ∀ x y, (pub.Curve.Marshal x y).length = 65)
    (hk : nextK draws pub.Curve.N = .val (k, rest))
    (hUM : pub.Curve.Unmarshal (pub.Curve.Marshal (pub.Curve.ScalarBaseMult (bigBytes k)).1
      (pub.Curve.ScalarBaseMult (bigBytes k)).2) = some (pub.Curve.ScalarBaseMult (bigBytes k)))
    (hinf : U.IsEcPointInfinity
      (pub.Curve.ScalarMult (pub.Curve.ScalarBaseMult (bigBytes k)).1
        (pub.Curve.ScalarBaseMult (bigBytes k)).2 sm2HBytes).1
      (pub.Curve.ScalarMult (pub.Curve.ScalarBaseMult (bigBytes k)).1
        (pub.Curve.ScalarBaseMult (bigBytes k)).2 sm2HBytes).2 = false)
    (hDH : pub.Curve.ScalarMult (pub.Curve.ScalarBaseMult (bigBytes k)).1
      (pub.Curve.ScalarBaseMult (bigBytes k)).2 (bigBytes priv.D)
        = pub.Curve.ScalarMult pub.X pub.Y (bigBytes k))
    (henc : Encrypt h 1 draws pub M = .val c) :
    Decrypt h U priv (Slice.ofList c) = .val M := by
  obtain ⟨k', rest', hk', hc⟩ := Encrypt_single_attempt h draws pub M c hB hcap henc
  rw [hk] at hk'
  simp only [Res.val.injEq, Prod.mk.injEq] at hk'
  obtain ⟨hkk, _⟩ := hk'
  subst hkk
  have hm := hM (pub.Curve.ScalarBaseMult (bigBytes k)).1 (pub.Curve.ScalarBaseMult (bigBytes k)).2
  have hdl := hD (bigBytes (pub.Curve.ScalarMult pub.X pub.Y (bigBytes k)).1 ++ M
              ++ bigBytes (pub.Curve.ScalarMult pub.X pub.Y (bigBytes k)).2)
  have hkl := kdfSpec_length h (pub.Curve.ScalarMult pub.X pub.Y (bigBytes k)).1
              (pub.Curve.ScalarMult pub.X pub.Y (bigBytes k)).2 M
  have hlen : c.length = 65 + M.length + 32 := by
    rw [hc]; simp only [List.length_append, hm, hkl]; rw [show ∀ l, (h.digest l).length = (h.Sum l).elems.length from fun _ => rfl, hdl]
  have htake : c.take 65 = pub.Curve.Marshal (pub.Curve.ScalarBaseMult (bigBytes k)).1
      (pub.Curve.ScalarBaseMult (bigBytes k)).2 := by
    rw [hc, List.append_assoc, List.take_left' hm]
  have hc2 : (c.drop 65).take (c.length - 97)
      = kdfSpec h (pub.Curve.ScalarMult pub.X pub.Y (bigBytes k)).1
          (pub.Curve.ScalarMult pub.X pub.Y (bigBytes k)).2 M := by
    have : c.length - 97 = M.length := by omega
    rw [this, hc, List.append_assoc, List.drop_left' hm, List.take_left' hkl]
  have hc3 : c.drop (c.length - 32)
      = h.digest (bigBytes (pub.Curve.ScalarMult pub.X pub.Y (bigBytes k)).1 ++ M
              ++ bigBytes (pub.Curve.ScalarMult pub.X pub.Y (bigBytes k)).2) := by
    have : c.length - 32 = 65 + M.length := by omega
    rw [this, hc, List.drop_left']
    rw [List.length_append, hm, hkl]
  have hdec : priv.Curve.Unmarshal ((Slice.ofList c).elems.take 65)
      = some (pub.Curve.ScalarBaseMult (bigBytes k)) := by
    rw [hCurve]
    show pub.Curve.Unmarshal (c.take 65) = _
    rw [htake, hUM]
  have hS : priv.Curve.ScalarMult (pub.Curve.ScalarBaseMult (bigBytes k)).1
      (pub.Curve.ScalarBaseMult (bigBytes k)).2 (bigBytes priv.D)
      = pub.Curve.ScalarMult pub.X pub.Y (bigBytes k) := by
    rw [hCurve, hDH]
  rw [Decrypt_eq_spec h U priv (Slice.ofList c) (pub.Curve.ScalarBaseMult (bigBytes k))
    hBits hSize hB hcap (by show 97 ≤ c.length; omega) hdec (by rw [hCurve]; exact hinf)]
  show (if h.digest (bigBytes (priv.Curve.ScalarMult _ _ (bigBytes priv.D)).1
            ++ kdfSpec h (priv.Curve.ScalarMult _ _ (bigBytes priv.D)).1
                (priv.Curve.ScalarMult _ _ (bigBytes priv.D)).2
                ((c.drop 65).take (c.length - 97))
            ++ bigBytes (priv.Curve.ScalarMult _ _ (bigBytes priv.D)).2)
          ≠ c.drop (c.length - 32)
      then Res.fail "invalid cipher text"
      else Res.val (kdfSpec h (priv.Curve.ScalarMult _ _ (bigBytes priv.D)).1
                (priv.Curve.ScalarMult _ _ (bigBytes priv.D)).2
                ((c.drop 65).take (c.length - 97)))) = _
  rw [hS, hc2, kdfSpec_involutive, hc3, if_neg (by simp)]

/-- The single-attempt round trip at the sample run of "hello" (`k = 3`, `D = 5`). -/
theorem round_trip_single_attempt_sample :
    Encrypt sampleHash 1 [Draw.val 3] samplePub helloBytes = .val sampleCipher ∧
    Decrypt sampleHash sampleUtil samplePriv (Slice.ofList sampleCipher) = .val helloBytes :=
  ⟨by decide,
   round_trip_single_attempt sampleHash sampleUtil samplePriv samplePub [Draw.val 3]
     helloBytes sampleCipher 3 [] rfl rfl rfl sampleHash_digest_length (by decide)
     sampleHash_cap sampleCurve_marshal_length (by decide) (by decide) (by decide)
     (by decide) (by decide)⟩

/-! ## `getZ` -/

/-- C11. Signer context hash: `getZ` returns the digest of
`BE16(len(userId)) ∥ userId ∥ A ∥ B ∥ Gx ∥ Gy ∥ Px ∥ Py` with the length of `userId` in
bytes (as a `uint16`), not in bits: for the default 16-byte identity the prefix is
`00 10`, where the spec's context hash has `00 80`, and on the sample hash the two
digests differ. -/
theorem getZ_prefix_is_byte_length :
    (∀ (h : Hash) (st : HashState) (C : P256V1Curve) (px py : Nat) (userId : List Nat),
      (getZ h st C px py userId).2
        = h.digest (be16 (userId.length % 65536) ++ userId ++ bigBytes C.A ++ bigBytes C.B
            ++ bigBytes C.Gx ++ bigBytes C.Gy ++ bigBytes px ++ bigBytes py)) ∧
    be16 (sm2SignDefaultUserId.length % 65536) = [0x00, 0x10] ∧
    be16 ((8 * sm2SignDefaultUserId.length) % 65536) = [0x00, 0x80] ∧
    (getZ sampleHash [] sampleCurve 5 10 sm2SignDefaultUserId).2
      ≠ getZStd sampleHash sampleCurve 5 10 sm2SignDefaultUserId := by
  refine ⟨?_, by decide, by decide, by decide⟩
  intro h st C px py userId
  simp [getZ, Hash.Reset, Hash.Write, Hash.digest]

/-! ## `kdf` and the state of the hash object -/

/-- C12. KDF determinism: for every hash, point and buffer, the data `kdf` produces (or
the panic or the endless loop it ends in) is the same whatever bytes the hash object had
absorbed before the call; each counter step starts with `Reset`. -/
theorem kdf_independent_of_hash_state (h : Hash) (st1 st2 : HashState) (x y : Nat)
    (data : List Nat) : kdfData h st1 x y data = kdfData h st2 x y data := by
  unfold kdfData kdf
  cases hd : data.length with
  | zero =>
    simp [kdfLoop]
  | succ n =>
    unfold kdfLoop
    simp only [Nat.zero_lt_succ, if_true, Hash.Reset]

/-! ## The curve constants -/

/-- C13. Curve parameters: the base point set by `initSm2P256V1` satisfies
`Gy² ≡ Gx³ + A·Gx + B (mod P)` for the constants set there, `Gx` and `Gy` are below `P`,
the bit size is 256 and `P` is a 256-bit number. -/
theorem initSm2P256V1_base_point_on_curve (sbm : List Nat → Nat × Nat)
    (sm : Nat → Nat → List Nat → Nat × Nat) (ma : Nat → Nat → List Nat)
    (um : List Nat → Option (Nat × Nat)) :
    ((initSm2P256V1 sbm sm ma um).Gy * (initSm2P256V1 sbm sm ma um).Gy)
        % (initSm2P256V1 sbm sm ma um).P
      = ((initSm2P256V1 sbm sm ma um).Gx * (initSm2P256V1 sbm sm ma um).Gx
            * (initSm2P256V1 sbm sm ma um).Gx
          + (initSm2P256V1 sbm sm ma um).A * (initSm2P256V1 sbm sm ma um).Gx
          + (initSm2P256V1 sbm sm ma um).B) % (initSm2P256V1 sbm sm ma um).P ∧
    (initSm2P256V1 sbm sm ma um).Gx < (initSm2P256V1 sbm sm ma um).P ∧
    (initSm2P256V1 sbm sm ma um).Gy < (initSm2P256V1 sbm sm ma um).P ∧
    (initSm2P256V1 sbm sm ma um).BitSize = 256 ∧
    2 ^ 255 ≤ (initSm2P256V1 sbm sm ma um).P ∧ (initSm2P256V1 sbm sm ma um).P < 2 ^ 256 := by
  simp only [initSm2P256V1]
  decide

/-! ## The inner loop of `Sign` -/

/-- C14. Exit of the inner loop of `Sign`: when the inner loop is left with `r` and `k`,
the test as coded holds, `r = 0` or `r + k = N`; a scalar with `r ≠ 0` and `r + k ≠ N`
makes it sample again. -/
theorem signInner_exit_test (C : P256V1Curve) (e : Int) (fuel : Nat) (draws : List Draw)
    (r k : Int) (rest : List Draw)
    (hret : signInner C e fuel draws = .val (r, k, rest)) :
    r = 0 ∨ r + k = C.N := by
  induction fuel generalizing draws with
  | zero => simp [signInner] at hret
  | succ fuel ih =>
    unfold signInner at hret
    obtain ⟨kr, _, hv⟩ := Res.bind_eq_val hret
    simp only [] at hv
    split at hv
    · rename_i hexit
      simp only [Res.val.injEq, Prod.mk.injEq] at hv
      obtain ⟨hr, hk, _⟩ := hv
      rw [← hr, ← hk]
      exact hexit
    · exact ih _ hv

/-- C14 at concrete runs on the stand-in curve with `e = 1`: the scalar 5 (`r = 6`,
`r + k = 11`) is sampled again, the scalar 256 (`r = 0`) leaves the loop. -/
theorem signInner_exit_test_witness :
    signInner sampleCurve 1 1 [Draw.val 5] = .spin ∧
    signInner sampleCurve 1 3 [Draw.val 5, Draw.val 256, Draw.val 9]
      = .val (0, 256, [Draw.val 9]) ∧
    ((0 : Int) = 0 ∨ (0 : Int) + 256 = sampleCurve.N) :=
  ⟨by decide, by decide,
   signInner_exit_test sampleCurve 1 3 [Draw.val 5, Draw.val 256, Draw.val 9] 0 256
     [Draw.val 9] (by decide)⟩

/-! ## `notEncrypted` -/

theorem notEncrypted_cons (i0 : Nat) (t : List Nat) : ∀ (c2 : List Nat),
    notEncrypted c2 (i0 :: t) = .val (decide (∀ b ∈ c2, b = i0)) := by
  intro c2
  induction c2 with
  | nil => simp [notEncrypted]
  | cons e es ih =>
    unfold notEncrypted
    by_cases he : e = i0
    · simp [he, ih]
    · simp [he]

/-- C16. Retry predicate: for `c2` and `in` of equal length, `notEncrypted(c2, in)`
returns true exactly when every byte of `c2` equals the first plaintext byte `in[0]`;
for the empty `c2` it returns true (and reads no `in[0]`, there is none). -/
theorem notEncrypted_spec (c2 inp : List Nat) (hlen : c2.length = inp.length) :
    notEncrypted c2 inp = .val (decide (∀ b ∈ c2, some b = inp.head?)) := by
  cases inp with
  | nil =>
    have : c2 = [] := List.length_eq_zero.mp hlen
    subst this
    simp [notEncrypted]
  | cons i0 t =>
    rw [notEncrypted_cons]
    simp

/-- C16 at concrete inputs: `[7, 7]` against the plaintext `[7, 9]` is reported as not
encrypted although the second bytes differ, and the empty pair gives true. -/
theorem notEncrypted_spec_witness :
    notEncrypted [7, 7] [7, 9] = .val true ∧ notEncrypted [] [] = .val true ∧
    notEncrypted [7, 9] [7, 9] = .val false :=
  ⟨(notEncrypted_spec [7, 7] [7, 9] rfl).trans (by decide), by decide, by decide⟩

/-- C20. The coefficient `A` set by `initSm2P256V1` is `P - 3`; with it the curve's
right-hand side `x³ + A·x + B mod P` equals the `x³ - 3x + B mod P` of the generic
`elliptic.CurveParams` code at every `x`, and no other coefficient in `[0, P-1]` does. -/
theorem initSm2P256V1_A_is_minus_three (sbm : List Nat → Nat × Nat)
    (sm : Nat → Nat → List Nat → Nat × Nat) (ma : Nat → Nat → List Nat)
    (um : List Nat → Option (Nat × Nat)) :
    (initSm2P256V1 sbm sm ma um).A = (initSm2P256V1 sbm sm ma um).P - 3 ∧
    (∀ x : Int, curveRhs (initSm2P256V1 sbm sm ma um) x
      = genericRhs (initSm2P256V1 sbm sm ma um) x) ∧
    (∀ a : Int, 0 ≤ a → a < (initSm2P256V1 sbm sm ma um).P →
      (∀ x : Int, rhsWith (initSm2P256V1 sbm sm ma um) a x
        = genericRhs (initSm2P256V1 sbm sm ma um) x) →
      a = (initSm2P256V1 sbm sm ma um).A) := by
  refine ⟨by simp only [initSm2P256V1]; decide, ?_, ?_⟩
  · intro x
    simp only [curveRhs, genericRhs, initSm2P256V1, sm2A, sm2B, sm2P, Nat.cast_ofNat]
    generalize x ^ 3 = t
    omega
  · intro a ha0 haP hall
    have h1 := hall 1
    simp only [rhsWith, genericRhs, initSm2P256V1, sm2A, sm2B, sm2P, Nat.cast_ofNat] at h1 haP ⊢
    omega

/-! ## `Sign` with an invertible `D + 1` -/

theorem sign_s_ne_zero (N D inv k r : Int) (hinv : (inv * (D + 1)) % N = 1)
    (hk1 : 1 ≤ k) (hk2 : k < N) (hexit : r = 0 ∨ r + k = N) :
    (inv * ((k - r * D) % N)) % N ≠ 0 := by
  intro hs
  obtain ⟨c, hc⟩ := Int.dvd_of_emod_eq_zero hs
  have hq : inv * (D + 1) = 1 + N * (inv * (D + 1) / N) := by
    have := Int.emod_add_ediv (inv * (D + 1)) N
    rw [hinv] at this
    linarith
  have hX : (k - r * D) % N = (k - r * D) - N * ((k - r * D) / N) := by
    have := Int.emod_add_ediv (k - r * D) N
    linarith
  generalize inv * (D + 1) / N = q at hq
  generalize (k - r * D) / N = t at hX
  rw [hX] at hc
  have hdvd : N ∣ k := by
    rcases hexit with h0 | hN
    · subst h0
      refine ⟨c * (D + 1) + t - q * k + N * q * t, ?_⟩
      linear_combination (D + 1) * hc - (k - 0 * D - N * t) * hq
    · have hr : r = N - k := by linarith
      subst hr
      refine ⟨c - q * k + inv * (D + t), ?_⟩
      linear_combination hc - k * hq
  have := Int.le_of_dvd (by omega) hdvd
  omega

theorem signInner_val (C : P256V1Curve) (e : Int) :
    ∀ (fuel : Nat) (draws : List Draw) (r k : Int) (rest : List Draw),
      signInner C e fuel draws = .val (r, k, rest) →
      (r = 0 ∨ r + k = C.N) ∧
      ∃ (kn : Nat) (pre : List Draw), k = kn ∧ 1 ≤ kn ∧ draws = pre ++ Draw.val kn :: rest := by
  intro fuel
  induction fuel with
  | zero => intro draws r k rest hret; simp [signInner] at hret
  | succ fuel ih =>
    intro draws r k rest hret
    unfold signInner at hret
    obtain ⟨kr, hk, hv⟩ := Res.bind_eq_val hret
    obtain ⟨hk1, pre, hpre⟩ := nextK_spec _ _ kr.1 kr.2 hk
    simp only [] at hv
    split at hv
    · rename_i hexit
      simp only [Res.val.injEq, Prod.mk.injEq] at hv
      obtain ⟨hr, hkk, hrest⟩ := hv
      subst hr hkk hrest
      exact ⟨hexit, kr.1, pre, rfl, hk1, hpre⟩
    · obtain ⟨hex, kn, pre2, hkn, hkn1, hd⟩ := ih _ _ _ _ hv
      refine ⟨hex, kn, pre ++ Draw.val kr.1 :: pre2, hkn, hkn1, ?_⟩
      rw [hpre, hd]; simp

theorem signOuter_not_val (U : Util) (C : P256V1Curve) (D e : Int)
    (hinv : (U.ModInverse (D + 1) C.N * (D + 1)) % C.N = 1) :
    ∀ (fuel : Nat) (draws : List Draw), (∀ n, Draw.val n ∈ draws → n < C.N) →
      (signOuter U C D e fuel draws).isVal = false := by
  intro fuel
  induction fuel with
  | zero => intro draws _; rfl
  | succ fuel ih =>
    intro draws hsrc
    unfold signOuter
    cases hin : signInner C e (fuel + 1) draws with
    | val rkd =>
      obtain ⟨r, k, rest⟩ := rkd
      obtain ⟨hexit, kn, pre, hkn, hkn1, hd⟩ := signInner_val C e _ _ _ _ _ hin
      have hlt : kn < C.N := hsrc kn (by rw [hd]; simp)
      have hs := sign_s_ne_zero C.N D (U.ModInverse (D + 1) C.N) k r hinv
        (by rw [hkn]; exact_mod_cast hkn1) (by rw [hkn]; exact_mod_cast hlt) hexit
      simp only [Res.val_bind, utilAdd, utilMul, utilSub, utilMod]
      rw [if_neg hs]
      apply ih
      intro n hn
      exact hsrc n (by rw [hd]; simp [hn])
    | fail m => rfl
    | crash c => rfl
    | spin => rfl

/-- C18. `Sign` never produces a signature: when `util.ModInverse` gives an inverse of
`D + 1` modulo `N` and the random source delivers values below `N`, then for every
`k ∈ [1, N-1]` and every `r` that passes the inner loop's exit test as coded (`r = 0` or
`r + k = N`) the value `s` is non-zero, and `Sign` returns no signature for any fuel and
any answers of the random source. -/
theorem Sign_never_returns (h : Hash) (U : Util) (asn1 : Int → Int → Res (List Nat))
    (fuel : Nat) (draws : List Draw) (priv : PrivateKey) (userId : Option (List Nat))
    (inp : List Nat)
    (hinv : (U.ModInverse ((priv.D : Int) + 1) priv.Curve.N * ((priv.D : Int) + 1))
      % priv.Curve.N = 1)
    (hsrc : ∀ n, Draw.val n ∈ draws → n < priv.Curve.N) :
    (∀ k r : Int, 1 ≤ k → k < priv.Curve.N → (r = 0 ∨ r + k = priv.Curve.N) →
      utilMod (utilMul (U.ModInverse (utilAdd priv.D 1) priv.Curve.N)
        (utilMod (utilSub k (utilMul r priv.D)) priv.Curve.N)) priv.Curve.N ≠ 0) ∧
    (signPair h U fuel draws priv userId inp).isVal = false ∧
    (Sign h U asn1 fuel draws priv userId inp).isVal = false := by
  have hp : (signPair h U fuel draws priv userId inp).isVal = false :=
    signOuter_not_val U priv.Curve priv.D _ hinv fuel draws hsrc
  refine ⟨?_, hp, ?_⟩
  · intro k r hk1 hk2 hexit
    exact sign_s_ne_zero _ _ _ k r hinv hk1 hk2 hexit
  · unfold Sign
    cases hsp : signPair h U fuel draws priv userId inp with
    | val rs => rw [hsp] at hp; simp [Res.isVal] at hp
    | fail m => rfl
    | crash c => rfl
    | spin => rfl

/-- C18 at a concrete run: `D = 5` on the stand-in curve (`N = 257`, `43·6 ≡ 1`); with the
answers 3, 250, 9, 100 `Sign` is still looping after four rounds. -/
theorem Sign_never_returns_witness :
    Sign sampleHash sampleUtil asn1Marshal 4
        [Draw.val 3, Draw.val 250, Draw.val 9, Draw.val 100] samplePriv none msgBytes = .spin ∧
    (Sign sampleHash sampleUtil asn1Marshal 4
        [Draw.val 3, Draw.val 250, Draw.val 9, Draw.val 100] samplePriv none msgBytes).isVal
      = false :=
  ⟨by decide,
   (Sign_never_returns sampleHash sampleUtil asn1Marshal 4
      [Draw.val 3, Draw.val 250, Draw.val 9, Draw.val 100] samplePriv none msgBytes
      (by decide) (by intro n hn; simp at hn; simp [samplePriv, sampleCurve]; omega)).2.2⟩

/-! ## The mask after a retry, and the chunks of `kdf` -/

/-- C15. Mask after a retry: in the run of `Encrypt` on the payload `[0, 1]` with the
answers 17 and 3, the returned `C1` encodes `3·G` and the shared point is
`S = 3·pub = (15, 30)`, but the returned `C2` is `[46, 93]` where `M XOR KDF(S, 2)` is
`[46, 92]`: the mask `[0, 1]` of the rejected attempt `k = 17` is still in `C2`. -/
theorem Encrypt_retry_leaves_mask_in_C2 :
    Encrypt sampleHash 5 [Draw.val 17, Draw.val 3] samplePub [0, 1] = .val retryCipher ∧
    retryCipher.take 65 = sampleCurve.Marshal (sampleCurve.ScalarBaseMult (bigBytes 3)).1
      (sampleCurve.ScalarBaseMult (bigBytes 3)).2 ∧
    sampleCurve.ScalarMult samplePub.X samplePub.Y (bigBytes 3) = (15, 30) ∧
    (retryCipher.drop 65).take 2 = [46, 93] ∧
    kdfData sampleHash [] 15 30 [0, 1] = .val [46, 92] ∧
    kdfData sampleHash [] 85 170 [0, 1] = .val [0, 0] ∧
    kdfData sampleHash [] 15 30 [0, 0] = .val [46, 93] := by
  refine ⟨by decide, by decide, by decide, by decide, by decide, by decide, by decide⟩

theorem getD_append_take (a b : List Nat) (n j : Nat) (hj : j < n) :
    ((a ++ b).take n).getD j 0 = (a ++ b).getD j 0 := by
  simp only [List.getD_eq_getElem?_getD, List.getElem?_take, if_pos hj]

theorem kdfMaskByte_eq (h : Hash) (x y i : Nat) (hB : 0 < h.BlockSize) :
    kdfMaskByte h x y i
      = ((h.Sum (bigBytes x ++ bigBytes y ++ be32 ((i / h.BlockSize + 1) % 4294967296))).elems
          ++ (h.Sum (bigBytes x ++ bigBytes y
                ++ be32 ((i / h.BlockSize + 1) % 4294967296))).spare).getD
          (i % h.BlockSize) 0 := by
  unfold kdfMaskByte kdfBlock
  apply getD_append_take
  have := (kdfBufSize_ge h).2
  have := Nat.mod_lt i hB
  omega

theorem kdfSpec_getD (h : Hash) (x y : Nat) (data : List Nat) (i : Nat)
    (hi : i < data.length) :
    (kdfSpec h x y data).getD i 0 = data.getD i 0 ^^^ kdfMaskByte h x y i := by
  unfold kdfSpec
  simp only [List.getD_eq_getElem?_getD, maskFrom_getElem?, List.getElem?_eq_getElem hi,
    Option.map_some', Option.getD_some, Nat.zero_add]

theorem kdf_crash_first_block (h : Hash) (st : HashState) (x y : Nat) (data : List Nat)
    (hne : data ≠ [])
    (hcap : (h.Sum (bigBytes x ++ bigBytes y ++ be32 1)).cap < kdfBufSize h) :
    kdf h st x y data = .crash .sliceBounds := by
  obtain ⟨n, hn⟩ : ∃ n, data.length = n + 1 :=
    ⟨data.length - 1, by have := List.length_pos.mpr hne; omega⟩
  have h4 := (kdfBufSize_ge h).1
  unfold kdf
  rw [hn]
  unfold kdfLoop
  simp only [Nat.zero_lt_succ, if_true, Hash.Reset, Hash.Write, List.nil_append]
  rw [show (if 4 < h.BlockSize then h.BlockSize else 4) = kdfBufSize h from rfl,
    putUint32_take _ _ (by simpa using h4)]
  have hup : (h.Sum (bigBytes x ++ bigBytes y ++ be32 ((0 + 1) % 4294967296))).upTo
      (kdfBufSize h) = .crash .sliceBounds := by
    unfold Slice.upTo
    rw [if_neg]
    have : (0 + 1) % 4294967296 = 1 := rfl
    rw [this]
    omega
  rw [hup]
  rfl

/-- C17. Chunks of `kdf`: with a positive block size `B`, (a) when every `Sum(nil)` can be
sliced to `bufSize = max 4 B`, `kdf` returns and data byte `i` is XORed with byte
`i mod B` of the backing array of `Sum(nil)` for the counter `i / B + 1`: one counter step
per `B` bytes, the whole buffer rewritten in every step; a byte with `i mod B` at or past
the digest length is XORed with a spare-capacity byte, so it is unchanged when the spare
bytes are zero; (b) when the first `Sum(nil)` has a capacity below `bufSize`, `kdf` on a
non-empty buffer panics in `tmp[:bufSize]`. -/
theorem kdf_block_size_chunks (h : Hash) (st : HashState) (x y : Nat) (data : List Nat)
    (hB : 0 < h.BlockSize) :
    ((∀ m, kdfBufSize h ≤ (h.Sum m).cap) →
      ∃ st' out, kdf h st x y data = .val (st', out) ∧ out.length = data.length ∧
        (∀ i, i < data.length →
          out.getD i 0 = data.getD i 0 ^^^
            ((h.Sum (bigBytes x ++ bigBytes y
                  ++ be32 ((i / h.BlockSize + 1) % 4294967296))).elems
              ++ (h.Sum (bigBytes x ++ bigBytes y
                  ++ be32 ((i / h.BlockSize + 1) % 4294967296))).spare).getD
              (i % h.BlockSize) 0) ∧
        ((∀ m, (h.Sum m).elems.length = h.Size) → (∀ m, ∀ b ∈ (h.Sum m).spare, b = 0) →
          ∀ i, i < data.length → h.Size ≤ i % h.BlockSize → out.getD i 0 = data.getD i 0)) ∧
    (data ≠ [] → (h.Sum (bigBytes x ++ bigBytes y ++ be32 1)).cap < kdfBufSize h →
      kdf h st x y data = .crash .sliceBounds) := by
  refine ⟨?_, kdf_crash_first_block h st x y data⟩
  intro hcap
  obtain ⟨st', hst'⟩ := kdf_eq h st x y data hB hcap
  have hpt : ∀ i, i < data.length →
      (kdfSpec h x y data).getD i 0 = data.getD i 0 ^^^
        ((h.Sum (bigBytes x ++ bigBytes y
              ++ be32 ((i / h.BlockSize + 1) % 4294967296))).elems
          ++ (h.Sum (bigBytes x ++ bigBytes y
              ++ be32 ((i / h.BlockSize + 1) % 4294967296))).spare).getD
          (i % h.BlockSize) 0 := by
    intro i hi
    rw [kdfSpec_getD h x y data i hi, kdfMaskByte_eq h x y i hB]
  refine ⟨st', kdfSpec h x y data, hst', maskFrom_length _ _ _, hpt, ?_⟩
  intro hlen hzero i hi hge
  rw [hpt i hi]
  generalize hm : bigBytes x ++ bigBytes y ++ be32 ((i / h.BlockSize + 1) % 4294967296) = m
  have hz : ((h.Sum m).elems ++ (h.Sum m).spare).getD (i % h.BlockSize) 0 = 0 := by
    rw [List.getD_eq_getElem?_getD, List.getElem?_append_right (by rw [hlen]; exact hge)]
    cases hg : (h.Sum m).spare[i % h.BlockSize - (h.Sum m).elems.length]? with
    | none => rfl
    | some b => exact hzero m b (List.getElem?_mem hg)
  rw [hz, Nat.xor_zero]

theorem zeroSpareHash_cap (m : List Nat) : kdfBufSize zeroSpareHash ≤ (zeroSpareHash.Sum m).cap := by
  simp [kdfBufSize, zeroSpareHash, Slice.cap, sampleDigest]

/-- C17 at a concrete hash: 32-byte digest, block size 64, 32 zero bytes of spare
capacity; on forty bytes `07` the bytes 32..39 come back unchanged. -/
theorem kdf_block_size_chunks_witness :
    kdfData zeroSpareHash [] 3 4 (List.replicate 40 7)
      = .val ([15, 22, 29, 36, 43, 50, 57, 64, 87, 94, 101, 108, 115, 122, 129, 136, 159,
          166, 173, 180, 187, 194, 201, 208, 231, 238, 245, 252, 3, 10, 17, 24]
          ++ List.replicate 8 7) ∧
    ∃ st' out, kdf zeroSpareHash [] 3 4 (List.replicate 40 7) = .val (st', out) ∧
      out.length = (List.replicate 40 7).length :=
  ⟨by decide,
   by
    obtain ⟨st', out, hk, hl, _⟩ :=
      (kdf_block_size_chunks zeroSpareHash [] 3 4 (List.replicate 40 7) (by decide)).1
        zeroSpareHash_cap
    exact ⟨st', out, hk, hl⟩⟩

/-- C17, the claim as stated fails: with a 32-byte digest and block size 64, `kdf` panics
when `Sum(nil)` has capacity 32, and when `Sum(nil)` has 32 spare bytes `AA` the data
bytes 32..39 are changed from `07` to `AD`. -/
theorem kdf_stale_bytes_counterexample :
    kdfData wideHash [] 3 4 (List.replicate 40 7) = .crash .sliceBounds ∧
    kdfData spareHash [] 3 4 (List.replicate 40 7)
      = .val ([15, 22, 29, 36, 43, 50, 57, 64, 87, 94, 101, 108, 115, 122, 129, 136, 159,
          166, 173, 180, 187, 194, 201, 208, 231, 238, 245, 252, 3, 10, 17, 24]
          ++ List.replicate 8 0xAD) := by
  refine ⟨by decide, by decide⟩

/-! ## `kdf` applied twice -/

theorem kdfData_eq (h : Hash) (st : HashState) (x y : Nat) (data : List Nat)
    (hB : 0 < h.BlockSize) (hcap : ∀ m, kdfBufSize h ≤ (h.Sum m).cap) :
    kdfData h st x y data = .val (kdfSpec h x y data) := by
  obtain ⟨st', hst'⟩ := kdf_eq h st x y data hB hcap
  simp [kdfData, hst']

/-- C19. `kdf` applied twice: for every hash with a positive block size whose `Sum(nil)`
can be sliced to `bufSize`, `kdf` returns a buffer of the same length and a second `kdf`
with the same point restores the data; whenever `kdf` returns, the length is unchanged;
but with a 32-byte digest of capacity 32 behind block size 64, `kdf` panics instead. -/
theorem kdf_involution :
    (∀ (h : Hash) (st st' : HashState) (x y : Nat) (d : List Nat), 0 < h.BlockSize →
      (∀ m, kdfBufSize h ≤ (h.Sum m).cap) →
      ∃ d1, kdfData h st x y d = .val d1 ∧ d1.length = d.length ∧
        kdfData h st' x y d1 = .val d) ∧
    (∀ (h : Hash) (st s1 : HashState) (x y : Nat) (d d1 : List Nat),
      kdf h st x y d = .val (s1, d1) → d1.length = d.length) ∧
    kdfData sampleHash [] 3 4 [1, 2, 3] = .val [9, 19, 25] ∧
    kdfData sampleHash [] 3 4 [9, 19, 25] = .val [1, 2, 3] ∧
    kdfData wideHash [] 3 4 [1, 2, 3] = .crash .sliceBounds := by
  refine ⟨?_, ?_, by decide, by decide, by decide⟩
  · intro h st st' x y d hB hcap
    refine ⟨kdfSpec h x y d, kdfData_eq h st x y d hB hcap, kdfSpec_length h x y d, ?_⟩
    rw [kdfData_eq h st' x y _ hB hcap, kdfSpec_involutive]
  · intro h st s1 x y d d1 hk
    exact kdf_length h st x y d s1 d1 hk

/-! ## `Decrypt` against the key-derivation function of the spec -/

/-- C6. `Decrypt` against the claim's `KDF`: under the sample key with a 32-byte digest
and block size 16, (a) the ciphertext `stdCipher` meets the claim's condition for the
17-byte payload `M` (`M = C2 XOR KDF(S, 17)` with `S = D·C1 = (15, 30)`, and the last 32
bytes are `digest(X(S) ∥ M ∥ Y(S))`), yet `Decrypt` returns "invalid cipher text";
(b) `Decrypt` returns `M` for `ownCipher`, whose `C2 XOR KDF(S, 17)` is not `M`;
(c) with block size 64 and a `Sum(nil)` of capacity 32, `Decrypt` on a 98-byte input with
a valid `C1` panics in `kdf` instead of returning an error. -/
theorem Decrypt_mask_is_not_the_KDF :
    stdCipher.length = 65 + 17 + 32 ∧
    sampleCurve.Unmarshal (stdCipher.take 65) = some (3, 6) ∧
    sampleCurve.ScalarMult 3 6 (bigBytes samplePriv.D) = (15, 30) ∧
    kdfStd sampleHash 15 30 ((stdCipher.drop 65).take 17) = seventeenBytes ∧
    stdCipher.drop (65 + 17)
      = sampleHash.digest (bigBytes 15 ++ seventeenBytes ++ bigBytes 30) ∧
    Decrypt sampleHash sampleUtil samplePriv (Slice.ofList stdCipher)
      = .fail "invalid cipher text" ∧
    Encrypt sampleHash 1 [Draw.val 3] samplePub seventeenBytes = .val ownCipher ∧
    Decrypt sampleHash sampleUtil samplePriv (Slice.ofList ownCipher) = .val seventeenBytes ∧
    kdfStd sampleHash 15 30 ((ownCipher.drop 65).take 17) ≠ seventeenBytes ∧
    sampleCurve.Unmarshal ((sampleCurve.Marshal 3 6 ++ List.replicate 33 0).take 65)
      = some (3, 6) ∧
    Decrypt wideHash sampleUtil samplePriv
      (Slice.ofList (sampleCurve.Marshal 3 6 ++ List.replicate 33 0))
      = .crash .sliceBounds := by
  refine ⟨by decide, by decide, by decide, by decide, by decide, by decide, by decide,
    by decide, by decide, by decide, by decide⟩

end SM2
